import Mathlib

/-!
Verification development for the VirtualTextEditor core
(`vted.py`, `revite/undo_redo_feature.py`, `test_visual_manager.py`).

The Python source is shallowly embedded: Python strings become `List Char`
(`len` counts code points, as in Python), Python dicts with integer keys
become association lists with first-match lookup and update-or-append
assignment, Python sets of ints become lists queried by membership, and
Python ints become `Int`.  `IndexedFile` is modelled at the decoded-line
level: the offset table, mmap and decoding collapse to the list of decoded
line strings, which is exactly the interface (`total_lines`, `__getitem__`)
the buffer consumes.  GTK signal emission (`emit "changed"`) has no
observable effect on buffer state and is dropped.
-/

namespace VTed

/-- Python strings modelled as lists of code points. -/
abbrev PyStr := List Char

/-- Resolve a Python slice endpoint: negative indices count from the end
and everything is clamped into `[0, len]`. -/
def pyIdx (len : Nat) (i : Int) : Nat :=
  if i < 0 then ((len : Int) + i).toNat else min i.toNat len

/-- Python `s[:c]`. -/
def pySliceTo (s : PyStr) (c : Int) : PyStr := s.take (pyIdx s.length c)

/-- Python `s[c:]`. -/
def pySliceFrom (s : PyStr) (c : Int) : PyStr := s.drop (pyIdx s.length c)

/-- Python `s[a:b]`. -/
def pySlice (s : PyStr) (a b : Int) : PyStr :=
  (s.take (pyIdx s.length b)).drop (pyIdx s.length a)

/-- Lookup in a Python dict with `Int` keys (first matching entry). -/
def dget {α : Type} : List (Int × α) → Int → Option α
  | [], _ => none
  | (k', v) :: rest, k => if k' = k then some v else dget rest k

/-- Python `k in d`. -/
def dmem {α : Type} (d : List (Int × α)) (k : Int) : Bool :=
  (dget d k).isSome

/-- Python `d[k] = v`: replace the entry if the key is present, else append. -/
def dset {α : Type} : List (Int × α) → Int → α → List (Int × α)
  | [], k, v => [(k, v)]
  | (k', v') :: rest, k, v =>
    if k' = k then (k, v) :: rest else (k', v') :: dset rest k v

/-- `bisect.bisect_right` inner loop.  The `while lo < hi` loop shrinks
`hi - lo` by at least one per iteration, so it is embedded structurally
with `hi - lo` as fuel; when the fuel is zero, `lo = hi` and the loop
result is `lo`, exactly as returned.  Out-of-range reads cannot occur
because `hi` never exceeds the length. -/
def bisectRightGo (a : List Int) (x : Int) : Nat → Nat → Nat → Nat
  | 0, lo, _ => lo
  | fuel + 1, lo, hi =>
    if lo < hi then
      if x < a.getD ((lo + hi) / 2) 0 then bisectRightGo a x fuel lo ((lo + hi) / 2)
      else bisectRightGo a x fuel ((lo + hi) / 2 + 1) hi
    else lo

/-- `bisect.bisect_right`. -/
def bisectRight (a : List Int) (x : Int) : Nat :=
  bisectRightGo a x a.length 0 a.length

/-- `bisect.bisect_left` inner loop (same fuel discipline). -/
def bisectLeftGo (a : List Int) (x : Int) : Nat → Nat → Nat → Nat
  | 0, lo, _ => lo
  | fuel + 1, lo, hi =>
    if lo < hi then
      if a.getD ((lo + hi) / 2) 0 < x then bisectLeftGo a x fuel ((lo + hi) / 2 + 1) hi
      else bisectLeftGo a x fuel lo ((lo + hi) / 2)
    else lo

/-- `bisect.bisect_left`. -/
def bisectLeft (a : List Int) (x : Int) : Nat :=
  bisectLeftGo a x a.length 0 a.length

/-- Python `max` over a nonempty list (the `[]` case is never consulted by
callers, which guard for nonemptiness first, mirroring the source). -/
def pyMax : List Int → Int
  | [] => 0
  | x :: xs => xs.foldl max x

/-- `IndexedFile`, modelled at the decoded-line level: `linesF` is the list
of decoded physical lines, so `total_lines = len(index) - 1` becomes its
length and `__getitem__` is bounds-checked lookup. -/
structure IndexedFileM where
  linesF : List PyStr
deriving DecidableEq

namespace IndexedFileM

/-- `IndexedFile.total_lines`. -/
def total_lines (f : IndexedFileM) : Nat := f.linesF.length

/-- `IndexedFile.__getitem__`: out-of-range physical lines give `""`. -/
def getItem (f : IndexedFileM) (line : Int) : PyStr :=
  if line < 0 ∨ (f.total_lines : Int) ≤ line then []
  else f.linesF.getD line.toNat []

end IndexedFileM

/-- The `Selection` class of `vted.py`. -/
structure SelectionM where
  start_line : Int
  start_col : Int
  end_line : Int
  end_col : Int
  active : Bool
  selecting_with_keyboard : Bool
deriving DecidableEq

namespace SelectionM

/-- `Selection.__init__` / `Selection.clear` (both write the same fields). -/
def init : SelectionM :=
  { start_line := -1, start_col := -1, end_line := -1, end_col := -1
    active := false, selecting_with_keyboard := false }

/-- `Selection.set_start`. -/
def set_start (_s : SelectionM) (line col : Int) : SelectionM :=
  { start_line := line, start_col := col, end_line := line, end_col := col
    active := true, selecting_with_keyboard := (_s).selecting_with_keyboard }

/-- `Selection.set_end`. -/
def set_end (s : SelectionM) (line col : Int) : SelectionM :=
  { s with end_line := line, end_col := col
           active := decide (s.start_line ≠ line ∨ s.start_col ≠ col) }

/-- `Selection.has_selection`. -/
def has_selection (s : SelectionM) : Bool :=
  s.active && (s.start_line ≠ s.end_line || s.start_col ≠ s.end_col)

/-- `Selection.get_bounds` (returns `none` for the all-`None` tuple). -/
def get_bounds (s : SelectionM) : Option (Int × Int × Int × Int) :=
  if s.has_selection = false then none
  else if s.start_line < s.end_line then
    some (s.start_line, s.start_col, s.end_line, s.end_col)
  else if s.end_line < s.start_line then
    some (s.end_line, s.end_col, s.start_line, s.start_col)
  else if s.start_col ≤ s.end_col then
    some (s.start_line, s.start_col, s.end_line, s.end_col)
  else
    some (s.end_line, s.end_col, s.start_line, s.start_col)

end SelectionM

/-- The `line_offsets` transformation performed by
`VirtualBuffer._add_offset` — the live (second, bisect-based) definition at
vted.py:1419, shadowing the linear-scan version at vted.py:584.  The method
mutates only the `line_offsets` attribute, so it is embedded as a function
on that list. -/
def addOffsetList (offs : List (Int × Int)) (at_line delta : Int) :
    List (Int × Int) :=
  if offs = [] then [(at_line, delta)]
  else
    if bisectLeft (offs.map Prod.fst) at_line < offs.length ∧
        (offs.getD (bisectLeft (offs.map Prod.fst) at_line) (0, 0)).1 = at_line then
      offs.mapIdx fun i p =>
        if i = bisectLeft (offs.map Prod.fst) at_line then (at_line, p.2 + delta)
        else if bisectLeft (offs.map Prod.fst) at_line < i then (p.1, p.2 + delta)
        else p
    else
      offs.take (bisectLeft (offs.map Prod.fst) at_line) ++
        (at_line,
          (if 0 < bisectLeft (offs.map Prod.fst) at_line then
            (offs.getD (bisectLeft (offs.map Prod.fst) at_line - 1) (0, 0)).2
          else 0) + delta) ::
        (offs.drop (bisectLeft (offs.map Prod.fst) at_line)).map
          fun p => (p.1, p.2 + delta)

/-- The `VirtualBuffer` state (the Alt+Arrow bookkeeping fields
`last_move_was_partial` / `expected_selection`, consumed by no modelled
operation, are not carried). -/
structure VBuf where
  file : Option IndexedFileM
  edits : List (Int × PyStr)
  deleted_lines : List Int
  inserted_lines : List (Int × PyStr)
  line_offsets : List (Int × Int)
  cursor_line : Int
  cursor_col : Int
  selection : SelectionM
deriving DecidableEq

namespace VBuf

/-- `VirtualBuffer.__init__`. -/
def empty : VBuf :=
  { file := none, edits := [], deleted_lines := [], inserted_lines := []
    line_offsets := [], cursor_line := 0, cursor_col := 0
    selection := SelectionM.init }

/-- `VirtualBuffer.load`. -/
def load (_s : VBuf) (f : IndexedFileM) : VBuf :=
  { file := some f, edits := [], deleted_lines := [], inserted_lines := []
    line_offsets := [], cursor_line := 0, cursor_col := 0
    selection := SelectionM.init }

/-- `VirtualBuffer._logical_to_physical` — the live (second, bisect-based)
definition at vted.py:1402; under Python redefinition rules it shadows the
linear-scan version at vted.py:531. -/
def logical_to_physical (s : VBuf) (logical_line : Int) : Int :=
  match s.file with
  | none => logical_line
  | some _ =>
    if s.line_offsets = [] then logical_line
    else
      let keys := s.line_offsets.map Prod.fst
      let idx := bisectRight keys logical_line
      if idx = 0 then logical_line
      else logical_line - (s.line_offsets.getD (idx - 1) (0, 0)).2

/-- `VirtualBuffer.total`. -/
def total (s : VBuf) : Int :=
  match s.file with
  | none =>
    if s.edits = [] ∧ s.inserted_lines = [] then 1
    else
      let all_lines := s.edits.map Prod.fst ++ s.inserted_lines.map Prod.fst
      if all_lines = [] then 1 else max 1 (pyMax all_lines + 1)
  | some f =>
    if s.line_offsets = [] then (f.total_lines : Int)
    else (f.total_lines : Int) + (s.line_offsets.getLast?.getD (0, 0)).2

/-- `VirtualBuffer.get_line`. -/
def get_line (s : VBuf) (ln : Int) : PyStr :=
  match dget s.inserted_lines ln with
  | some t => t
  | none =>
    match dget s.edits ln with
    | some t => t
    | none =>
      if s.deleted_lines.contains ln then []
      else
        match s.file with
        | some f =>
          let physical := s.logical_to_physical ln
          if 0 ≤ physical ∧ physical < (f.total_lines : Int) then
            f.getItem physical
          else []
        | none => []

/-- `VirtualBuffer._add_offset`. -/
def add_offset (s : VBuf) (at_line delta : Int) : VBuf :=
  { s with line_offsets := addOffsetList s.line_offsets at_line delta }

/-- `VirtualBuffer.set_cursor`. -/
def set_cursor (s : VBuf) (ln col : Int) (extend_selection : Bool) : VBuf :=
  let t := s.total
  let ln' := max 0 (min ln (t - 1))
  let line := s.get_line ln'
  let col' := max 0 (min col (line.length : Int))
  let sel :=
    if extend_selection then
      let sel0 :=
        if s.selection.active = false then
          s.selection.set_start s.cursor_line s.cursor_col
        else s.selection
      sel0.set_end ln' col'
    else
      if s.selection.selecting_with_keyboard = false then SelectionM.init
      else s.selection
  { s with cursor_line := ln', cursor_col := col', selection := sel }

/-- `VirtualBuffer.delete_selection` (returns the Python method's boolean). -/
def delete_selection (s : VBuf) : VBuf × Bool :=
  if s.selection.has_selection = false then (s, false)
  else
    match s.selection.get_bounds with
    | none => (s, false)
    | some (start_line, start_col, end_line, end_col) =>
      if start_line = end_line then
        let line := s.get_line start_line
        let new_line := pySliceTo line start_col ++ pySliceFrom line end_col
        let s' :=
          if dmem s.inserted_lines start_line then
            { s with inserted_lines := dset s.inserted_lines start_line new_line }
          else
            { s with edits := dset s.edits start_line new_line }
        ({ s' with cursor_line := start_line, cursor_col := start_col
                   selection := SelectionM.init }, true)
      else
        let first_line := s.get_line start_line
        let last_line := s.get_line end_line
        let new_line := pySliceTo first_line start_col ++ pySliceFrom last_line end_col
        let lines_deleted := end_line - start_line
        let new_ins := s.inserted_lines.filterMap fun p =>
          if p.1 < start_line then some p
          else if p.1 = start_line then none
          else if p.1 ≤ end_line then none
          else some (p.1 - lines_deleted, p.2)
        let new_ed := s.edits.filterMap fun p =>
          if p.1 < start_line then some p
          else if p.1 = start_line then none
          else if p.1 ≤ end_line then none
          else some (p.1 - lines_deleted, p.2)
        let new_del := s.deleted_lines.filterMap fun k =>
          if k < start_line then some k
          else if k ≤ end_line then none
          else some (k - lines_deleted)
        let maps :=
          if dmem s.inserted_lines start_line then
            (dset new_ins start_line new_line, new_ed)
          else
            (new_ins, dset new_ed start_line new_line)
        let s' := { s with inserted_lines := maps.1, edits := maps.2
                           deleted_lines := new_del }
        let s'' := s'.add_offset (start_line + 1) (-lines_deleted)
        ({ s'' with cursor_line := start_line, cursor_col := start_col
                    selection := SelectionM.init }, true)

/-- `VirtualBuffer.insert_text`. -/
def insert_text (s0 : VBuf) (text : PyStr) : VBuf :=
  let s := if s0.selection.has_selection then (s0.delete_selection).1 else s0
  let ln := s.cursor_line
  let col := s.cursor_col
  let old := s.get_line ln
  let parts := text.splitOn '\n'
  if parts.length = 1 then
    let new_line := pySliceTo old col ++ text ++ pySliceFrom old col
    let s' :=
      if dmem s.inserted_lines ln then
        { s with inserted_lines := dset s.inserted_lines ln new_line }
      else
        { s with edits := dset s.edits ln new_line }
    { s' with cursor_col := col + (text.length : Int) }
  else
    let first := parts.headD []
    let last := parts.getLastD []
    let middle := (parts.drop 1).dropLast
    let left_part := pySliceTo old col ++ first
    let right_part := last ++ pySliceFrom old col
    let lines_to_insert : Int := (parts.length : Int) - 1
    let new_ins0 := s.inserted_lines.filterMap fun p =>
      if p.1 < ln then some p
      else if p.1 = ln then none
      else some (p.1 + lines_to_insert, p.2)
    let new_ed0 := s.edits.filterMap fun p =>
      if p.1 < ln then some p
      else if p.1 = ln then none
      else some (p.1 + lines_to_insert, p.2)
    let new_del := s.deleted_lines.map fun k =>
      if k < ln then k else k + lines_to_insert
    let maps :=
      if dmem s.inserted_lines ln then
        (dset new_ins0 ln left_part, new_ed0)
      else
        (new_ins0, dset new_ed0 ln left_part)
    let new_ins2 := (middle.enum).foldl
      (fun d p => dset d (ln + 1 + (p.1 : Int)) p.2) maps.1
    let new_ins3 := dset new_ins2 (ln + lines_to_insert) right_part
    let s' := { s with inserted_lines := new_ins3, edits := maps.2
                       deleted_lines := new_del }
    let s'' := s'.add_offset (ln + 1) lines_to_insert
    { s'' with cursor_line := ln + lines_to_insert
               cursor_col := (right_part.length : Int)
                 - ((pySliceFrom old col).length : Int) }

/-- The C1 round trip: insert `t` at the cursor, then select exactly the
inserted span (anchor at the pre-insert cursor, floating end at the
post-insert cursor — the cursor lands at the end of the last inserted
segment) and delete the selection. -/
def roundTrip (s : VBuf) (t : PyStr) : VBuf :=
  let ln := s.cursor_line
  let col := s.cursor_col
  let s1 := s.insert_text t
  let s2 := { s1 with selection :=
    (s1.selection.set_start ln col).set_end s1.cursor_line s1.cursor_col }
  (s2.delete_selection).1

end VBuf

/-- The logical→physical shift in effect at logical line `q`: the value of
the last `line_offsets` entry whose boundary is `≤ q` (0 when none), the
quantity `_logical_to_physical` subtracts and `total` adds at the end. -/
def shiftFold (offs : List (Int × Int)) (q : Int) : Int :=
  offs.foldl (fun acc p => if p.1 ≤ q then p.2 else acc) 0

/-- Well-formedness of the remap table: boundary keys strictly increase
(an invariant of every table `_add_offset` builds from scratch). -/
def OffsSorted (offs : List (Int × Int)) : Prop :=
  List.Pairwise (· < ·) (offs.map Prod.fst)

/-! ### `IndexedFile.detect_encoding` (vted.py:263)

The byte sample handed to the detector is modelled as a `List Nat`.  The
two heuristic ratio tests divide an integer zero count by the float
`len(data)/2` and compare with `0.4`; since `len/2` is exactly
representable and the candidate ratios are rationals with denominator at
most `5 * len`, whose distance from `2/5` (when distinct from it) vastly
exceeds double-rounding error, the float comparison coincides with the
exact rational comparison `zeros / (len/2) > 2/5`, i.e. `5 * zeros > len`,
which is how it is embedded.  A `ZeroDivisionError` (empty sample reaching
the big-endian ratio) is modelled as `none`. -/

/-- `sum(1 for i in range(1, len(data), 2) if data[i] == 0)`. -/
def countZerosAtOdd (data : List Nat) : Nat :=
  (data.enum.filter fun p => p.1 % 2 = 1).countP fun p => p.2 = 0

/-- `sum(1 for i in range(0, len(data), 2) if data[i] == 0)`. -/
def countZerosAtEven (data : List Nat) : Nat :=
  (data.enum.filter fun p => p.1 % 2 = 0).countP fun p => p.2 = 0

/-- Number of odd positions in the sample (what "the bytes at odd
positions" of the claim counts zeros against). -/
def oddPositionCount (data : List Nat) : Nat :=
  (data.enum.filter fun p => p.1 % 2 = 1).length

/-- `IndexedFile.detect_encoding`, on the leading byte sample. -/
def detect_encoding (data : List Nat) : Option String :=
  if data.take 2 = [0xff, 0xfe] then some "utf-16le"
  else if data.take 2 = [0xfe, 0xff] then some "utf-16be"
  else if data.take 3 = [0xef, 0xbb, 0xbf] then some "utf-8-sig"
  else if 4 ≤ data.length ∧ data.length < 5 * countZerosAtOdd data then
    some "utf-16le"
  else if data.length = 0 then none
  else if data.length < 5 * countZerosAtEven data then some "utf-16be"
  else some "utf-8"

/-! ### `VisualLineManager` (test_visual_manager.py:46) -/

/-- `VisualLineManager.CHUNK_SIZE`. -/
def CHUNK_SIZE : Nat := 1000

/-- The `VisualLineManager` state: `counts` is the `array('B')` of per-line
wrap counts, `chunk_sums` the cached per-chunk sums, `total_visual_lines`
the running grand total. -/
structure VisualLineManager where
  counts : List Nat
  chunk_sums : List Int
  total_visual_lines : Int
deriving DecidableEq

namespace VisualLineManager

/-- `VisualLineManager.__init__`. -/
def init (total_logical_lines : Nat) : VisualLineManager :=
  { counts := List.replicate total_logical_lines 1
    chunk_sums :=
      (List.range ((total_logical_lines + CHUNK_SIZE - 1) / CHUNK_SIZE)).map
        fun i =>
          ((min (i * CHUNK_SIZE + CHUNK_SIZE) total_logical_lines
            - i * CHUNK_SIZE : Nat) : Int)
    total_visual_lines := total_logical_lines }

/-- `VisualLineManager.update`. -/
def update (vm : VisualLineManager) (logical_line visual_count : Int) :
    VisualLineManager :=
  if logical_line < 0 ∨ (vm.counts.length : Int) ≤ logical_line then vm
  else
    let vc := min 255 (max 1 visual_count)
    let i := logical_line.toNat
    let old := vm.counts.getD i 0
    if (old : Int) = vc then vm
    else
      let diff := vc - (old : Int)
      let chunk_idx := i / CHUNK_SIZE
      { counts := vm.counts.set i vc.toNat
        chunk_sums :=
          if chunk_idx < vm.chunk_sums.length then
            vm.chunk_sums.mapIdx fun j x => if j = chunk_idx then x + diff else x
          else vm.chunk_sums
        total_visual_lines := vm.total_visual_lines + diff }

/-- `VisualLineManager._rebuild_chunks`. -/
def rebuild_chunks (vm : VisualLineManager) : VisualLineManager :=
  let total_len := vm.counts.length
  let num_chunks := (total_len + CHUNK_SIZE - 1) / CHUNK_SIZE
  let sums := (List.range num_chunks).map fun i =>
    (((vm.counts.drop (i * CHUNK_SIZE)).take
        (min (i * CHUNK_SIZE + CHUNK_SIZE) total_len - i * CHUNK_SIZE)).sum : Int)
  { vm with chunk_sums := sums, total_visual_lines := sums.foldl (· + ·) 0 }

/-- Python `list.insert(i, x)` (negative indices count from the end). -/
def pyListInsert (l : List Nat) (i : Int) (v : Nat) : List Nat :=
  let pos := if i < 0 then ((l.length : Int) + i).toNat else min i.toNat l.length
  l.take pos ++ v :: l.drop pos

/-- The `for _ in range(count): self.counts.insert(logical_line, visual_count)`
loop of `VisualLineManager.insert`. -/
def insertLoop (l : List Nat) (i : Int) (v : Nat) : Nat → List Nat
  | 0 => l
  | n + 1 => insertLoop (pyListInsert l i v) i v n

/-- `VisualLineManager.insert`. -/
def insert (vm : VisualLineManager) (logical_line count : Int)
    (visual_count : Int) : VisualLineManager :=
  let vc := (min 255 (max 1 visual_count)).toNat
  let counts' :=
    if (vm.counts.length : Int) ≤ logical_line then
      vm.counts ++ List.replicate count.toNat vc
    else
      insertLoop vm.counts logical_line vc count.toNat
  rebuild_chunks { vm with counts := counts' }

/-- `VisualLineManager.delete` (`del counts[logical_line:end]`). -/
def delete (vm : VisualLineManager) (logical_line count : Int) :
    VisualLineManager :=
  if logical_line < 0 ∨ count ≤ 0 then vm
  else
    let len := vm.counts.length
    let endIdx := (min (logical_line + count) (len : Int)).toNat
    let a := min logical_line.toNat len
    let counts' :=
      if endIdx ≤ a then vm.counts
      else vm.counts.take a ++ vm.counts.drop endIdx
    rebuild_chunks { vm with counts := counts' }

/-- `VisualLineManager.get_total_visual_lines`. -/
def get_total_visual_lines (vm : VisualLineManager) : Int :=
  vm.total_visual_lines

/-- `VisualLineManager.get_visual_offset` (the chunk-sum and in-chunk loops
are folds over the same index ranges; an out-of-range `chunk_sums[i]`,
which would raise in Python, reads 0 — it cannot occur for consistent
states). -/
def get_visual_offset (vm : VisualLineManager) (logical_line : Int) : Int :=
  if logical_line ≤ 0 then 0
  else if (vm.counts.length : Int) ≤ logical_line then vm.total_visual_lines
  else
    let target_chunk := logical_line.toNat / CHUNK_SIZE
    let base := (List.range target_chunk).foldl
      (fun acc i => acc + vm.chunk_sums.getD i 0) 0
    let start := target_chunk * CHUNK_SIZE
    (List.range' start (logical_line.toNat - start)).foldl
      (fun acc i => acc + (vm.counts.getD i 0 : Int)) base

end VisualLineManager

/-- The canonical sum of chunk `i` of a counts array: the sum of
`counts[start:end]` for `start = i*CHUNK_SIZE`,
`end = min(start + CHUNK_SIZE, len(counts))` (as in `_rebuild_chunks`). -/
def chunkSum (counts : List Nat) (i : Nat) : Int :=
  (((counts.drop (i * CHUNK_SIZE)).take
      (min (i * CHUNK_SIZE + CHUNK_SIZE) counts.length - i * CHUNK_SIZE)).sum : Int)

/-- The canonical chunk-sum table of a counts array. -/
def chunkSums (counts : List Nat) : List Int :=
  (List.range ((counts.length + CHUNK_SIZE - 1) / CHUNK_SIZE)).map (chunkSum counts)

/-- One call into the `VisualLineManager` mutation interface. -/
inductive VLMOp where
  | update (line vc : Int)
  | insert (line cnt vc : Int)
  | delete (line cnt : Int)

/-- Apply one mutation. -/
def applyOp (vm : VisualLineManager) : VLMOp → VisualLineManager
  | .update line vc => vm.update line vc
  | .insert line cnt vc => vm.insert line cnt vc
  | .delete line cnt => vm.delete line cnt

/-- Apply a call sequence in order. -/
def applyOps (vm : VisualLineManager) (ops : List VLMOp) : VisualLineManager :=
  ops.foldl applyOp vm

/-- The C10 consistency invariant: wrap counts in `[1, 255]`, cached chunk
sums canonical, grand total the sum of all counts. -/
def VLMInv (vm : VisualLineManager) : Prop :=
  (∀ c ∈ vm.counts, 1 ≤ c ∧ c ≤ 255) ∧
  vm.chunk_sums = chunkSums vm.counts ∧
  vm.total_visual_lines = (vm.counts.sum : Int)

/-! ### Undo/redo (`revite/undo_redo_feature.py`)

Timestamps (`time.time()` floats) are ambient inputs, modelled as explicit
integer instants; the merge window test
`other.timestamp - self.timestamp > 2.0` becomes `2 < diff`, exact for
the integer-valued instants the repository's scenarios distinguish.  Python `str.isspace` / `str.isalnum` are modelled on
the ASCII range (the only range the repository's merge scenarios exercise).
An `IndexError` from `self.text[-1]` / `other.text[0]` on an empty text
(impossible for commands recorded from actual edits) is modelled as merge
failure. -/

/-- ASCII `str.isspace` on a single character. -/
def pyIsSpaceChar (c : Char) : Bool :=
  c = ' ' ∨ c = '\t' ∨ c = '\n' ∨ c = '\r' ∨ c = '\x0b' ∨ c = '\x0c'

/-- ASCII `str.isalnum` on a single character. -/
def pyIsAlnumChar (c : Char) : Bool :=
  c.isAlpha ∨ c.isDigit

/-- `group_type` from `InsertCommand.merge`. -/
def group_type (txt : PyStr) : Nat :=
  if txt = [] then 0
  else if txt.all pyIsSpaceChar then 1
  else if txt.all pyIsAlnumChar ∨ txt = ['_'] then 2
  else 3

/-- The undo command hierarchy (`InsertCommand`, `DeleteCommand`,
`CompositeCommand`). -/
inductive UndoCmd where
  | insertC (line col : Int) (text : Option PyStr) (lines : Option (List PyStr))
      (cursor_after_line cursor_after_col : Int) (timestamp : Int)
  | deleteC (line col : Int) (text : PyStr) (restore_selection : Bool)
      (timestamp : Int)
  | composite (cmds : List UndoCmd)

/-- Python truthiness of the optional `lines` list. -/
def linesTruthy (lines : Option (List PyStr)) : Bool :=
  match lines with
  | some ls => ls ≠ []
  | none => false

/-- `InsertCommand.__init__` (drops `text` when a long `lines` list is
supplied). -/
def mkInsertCommand (line col : Int) (text : PyStr)
    (cursor_after_line cursor_after_col : Int)
    (lines : Option (List PyStr)) (timestamp : Int) : UndoCmd :=
  .insertC line col
    (if linesTruthy lines ∧ 100 < (lines.getD []).length then none else some text)
    lines cursor_after_line cursor_after_col timestamp

/-- End position of an insertion, as computed identically in
`InsertCommand.undo` and `InsertCommand.merge`. -/
def insertEnd (line col : Int) (text : Option PyStr)
    (lines : Option (List PyStr)) : Int × Int :=
  if linesTruthy lines then
    let ls := lines.getD []
    if ls.length = 1 then (line, col + ((ls.headD []).length : Int))
    else (line + (ls.length : Int) - 1, ((ls.getLastD []).length : Int))
  else
    let text_lines := (text.getD []).splitOn '\n'
    if text_lines.length = 1 then (line, col + ((text.getD []).length : Int))
    else (line + (text_lines.length : Int) - 1,
      ((text_lines.getLastD []).length : Int))

/-- `UndoCommand.merge` dispatched over the three command classes. -/
def mergeCmd (self other : UndoCmd) : Option UndoCmd :=
  match self with
  | .insertC line col text lines _cal _cac ts =>
    match other with
    | .insertC oline ocol otext olines ocal ocac ots =>
      let e := insertEnd line col text lines
      if oline ≠ e.1 ∨ ocol ≠ e.2 then none
      else if 2 < ots - ts then none
      else if linesTruthy lines ∨ linesTruthy olines then none
      else
        match (text.getD []).getLast?, (otext.getD []).head? with
        | some lc, some fc =>
          let last_group := group_type [lc]
          let new_group := group_type [fc]
          if (text.getD []).contains '\n' then none
          else if last_group = 1 ∧ new_group ≠ 1 then none
          else if 50 < (text.getD []).length then none
          else some (.insertC line col (some (text.getD [] ++ otext.getD []))
            lines ocal ocac ots)
        | _, _ => none
    | _ => none
  | .deleteC line col text rs _ts =>
    match other with
    | .deleteC oline ocol otext _ors ots =>
      let lines_other := otext.splitOn '\n'
      if lines_other.length = 1 then
        if oline = line ∧ ocol + (otext.length : Int) = col then
          some (.deleteC line ocol (otext ++ text) rs ots)
        else if oline = line ∧ ocol = col then
          some (.deleteC line col (text ++ otext) rs ots)
        else none
      else none
    | _ => none
  | .composite _ => none

open VBuf in
/-- `UndoCommand.undo` (mutually with the reversed-order sub-command walk of
`CompositeCommand.undo`). -/
def undoCmd : UndoCmd → VBuf → VBuf
  | .insertC line col text lines _cal _cac _ts, b =>
    let e := insertEnd line col text lines
    let b1 := { b with selection :=
      (b.selection.set_start line col).set_end e.1 e.2 }
    let b2 := (b1.delete_selection).1
    { b2 with cursor_line := line, cursor_col := col }
  | .deleteC line col text rs _ts, b =>
    let b1 := { b with cursor_line := line, cursor_col := col }
    let b2 := b1.insert_text text
    if rs then
      let lines := text.splitOn '\n'
      let e :=
        if lines.length = 1 then (line, col + (text.length : Int))
        else (line + (lines.length : Int) - 1, ((lines.getLastD []).length : Int))
      { b2 with selection := (b2.selection.set_start line col).set_end e.1 e.2 }
    else b2
  | .composite cmds, b => undoCmdList cmds b
where
  /-- `for cmd in reversed(self.commands): cmd.undo(buffer)`. -/
  undoCmdList : List UndoCmd → VBuf → VBuf
  | [], b => b
  | c :: cs, b => undoCmd c (undoCmdList cs b)

open VBuf in
/-- `UndoCommand.redo` (mutually with the forward walk of
`CompositeCommand.redo`). -/
def redoCmd : UndoCmd → VBuf → VBuf
  | .insertC line col text lines cal cac _ts, b =>
    let b1 := { b with cursor_line := line, cursor_col := col
                       selection := SelectionM.init }
    let text_to_insert :=
      if text = none ∧ linesTruthy lines then
        ((lines.getD []).intersperse ['\n']).flatten
      else text.getD []
    let b2 := b1.insert_text text_to_insert
    { b2 with cursor_line := cal, cursor_col := cac }
  | .deleteC line col text _rs _ts, b =>
    let lines := text.splitOn '\n'
    let e :=
      if lines.length = 1 then (line, col + (text.length : Int))
      else (line + (lines.length : Int) - 1, ((lines.getLastD []).length : Int))
    let b1 := { b with selection :=
      (b.selection.set_start line col).set_end e.1 e.2 }
    (b1.delete_selection).1
  | .composite cmds, b => redoCmdList cmds b
where
  /-- `for cmd in self.commands: cmd.redo(buffer)`. -/
  redoCmdList : List UndoCmd → VBuf → VBuf
  | [], b => b
  | c :: cs, b => redoCmdList cs (redoCmd c b)

/-- The `UndoStack` state; the stack lists are oldest-first (Python list
with `append`/`pop` at the tail and eviction `pop(0)` at the head). -/
structure UndoStackM where
  buffer : VBuf
  undo_stack : List UndoCmd
  redo_stack : List UndoCmd
  max_size : Nat
  is_doing_undo : Bool

namespace UndoStackM

/-- `UndoStack.__init__`. -/
def init (buffer : VBuf) (max_size : Nat := 1000) : UndoStackM :=
  { buffer, undo_stack := [], redo_stack := [], max_size
    is_doing_undo := false }

/-- `UndoStack.add_command`. -/
def add_command (st : UndoStackM) (cmd : UndoCmd) : UndoStackM :=
  if st.is_doing_undo then st
  else
    let merged :=
      match st.undo_stack.getLast? with
      | some top => mergeCmd top cmd
      | none => none
    match merged with
    | some top' => { st with undo_stack := st.undo_stack.dropLast ++ [top'] }
    | none =>
      let us := st.undo_stack ++ [cmd]
      { st with
        undo_stack := if st.max_size < us.length then us.drop 1 else us
        redo_stack := [] }

/-- `UndoStack.undo` (the `finally` always resets the replay flag). -/
def undo (st : UndoStackM) : UndoStackM :=
  match st.undo_stack.getLast? with
  | none => st
  | some cmd =>
    { st with
      undo_stack := st.undo_stack.dropLast
      redo_stack := st.redo_stack ++ [cmd]
      buffer := undoCmd cmd st.buffer
      is_doing_undo := false }

/-- `UndoStack.redo`. -/
def redo (st : UndoStackM) : UndoStackM :=
  match st.redo_stack.getLast? with
  | none => st
  | some cmd =>
    { st with
      redo_stack := st.redo_stack.dropLast
      undo_stack := st.undo_stack ++ [cmd]
      buffer := redoCmd cmd st.buffer
      is_doing_undo := false }

/-- `UndoStack.can_undo`. -/
def can_undo (st : UndoStackM) : Bool := 0 < st.undo_stack.length

/-- `UndoStack.can_redo`. -/
def can_redo (st : UndoStackM) : Bool := 0 < st.redo_stack.length

end UndoStackM

/-! ### Concrete states and comparison definitions used by the claims -/

/-- `get_line` as §3/§8 of the spec word it (the comparison definition for
the refinement claim): resolve through exactly one of inserted → modified →
tombstoned → physical, with `""` for a deleted line, an out-of-range
physical line, or no loaded file. -/
def get_line_spec (s : VBuf) (n : Int) : PyStr :=
  if dmem s.inserted_lines n then (dget s.inserted_lines n).getD []
  else if dmem s.edits n then (dget s.edits n).getD []
  else if s.deleted_lines.contains n then []
  else
    match s.file with
    | none => []
    | some f =>
      let physical := s.logical_to_physical n
      if 0 ≤ physical ∧ physical < (f.total_lines : Int) then
        f.linesF.getD physical.toNat []
      else []

/-- The three-line physical file of the scenario. -/
def alphaFile : IndexedFileM :=
  ⟨["alpha".toList, "beta".toList, "gamma".toList]⟩

/-- Buffer state after the characters `c`, `a`, `t` have been typed. -/
def catBuffer : VBuf :=
  { VBuf.empty with edits := [(0, "cat".toList)], cursor_line := 0
                    cursor_col := 3 }

/-- Buffer state after `"cat "` and then `"dog"` have been inserted. -/
def catDogBuffer : VBuf :=
  { VBuf.empty with edits := [(0, "cat dog".toList)], cursor_line := 0
                    cursor_col := 7 }

/-- A buffer whose selection was made in keyboard-selection mode: the
`selecting_with_keyboard` flag is set and the selection spans (0,0)-(0,2)
of the single line `"ab"`. -/
def keyboardSelBuffer : VBuf :=
  { VBuf.empty with
    edits := [(0, "ab".toList)]
    selection := { start_line := 0, start_col := 0, end_line := 0
                   end_col := 2, active := true
                   selecting_with_keyboard := true } }

/-- A buffer state whose cursor line lies beyond `total() - 1` (the public
cursor fields are plain attributes, assigned directly e.g. during undo
replay). -/
def highCursorBuffer : VBuf := { VBuf.empty with cursor_line := 1 }

/-- A buffer state with an active selection (edits hold line 0 = "ab", the
span (0,0)–(0,1) is selected, cursor at column 1). -/
def selActiveBuffer : VBuf :=
  { VBuf.empty with
      edits := [(0, "ab".toList)]
      cursor_line := 0
      cursor_col := 1
      selection := { start_line := 0, start_col := 0, end_line := 0
                     end_col := 1, active := true
                     selecting_with_keyboard := false } }

/-- A two-line file-backed buffer for the C1 witness. -/
def c1WitnessBuffer : VBuf :=
  VBuf.empty.load { linesF := ["ab".toList, "cd".toList] }

/-! ### General lemmas -/

theorem dget_dset {α : Type} (d : List (Int × α)) (k j : Int) (v : α) :
    dget (dset d k v) j = if k = j then some v else dget d j := by
  induction d with
  | nil => by_cases h : k = j <;> simp [dset, dget, h]
  | cons p rest ih =>
    obtain ⟨k', v'⟩ := p
    by_cases hk : k' = k
    · subst hk
      by_cases hj : k' = j <;> simp [dset, dget, hj]
    · by_cases hj : k' = j
      · subst hj
        have : ¬ k = k' := fun h => hk h.symm
        simp [dset, dget, hk, this]
      · simp [dset, dget, hk, hj, ih]

theorem dmem_dset {α : Type} (d : List (Int × α)) (k j : Int) (v : α) :
    dmem (dset d k v) j = if k = j then true else dmem d j := by
  by_cases h : k = j <;> simp [dmem, dget_dset, h]

theorem splitOn_of_not_mem {t : PyStr} (h : '\n' ∉ t) :
    t.splitOn '\n' = [t] := by
  apply List.splitOnP_eq_single
  intro x hx
  simp only [beq_iff_eq]
  exact fun hxn => h (hxn ▸ hx)

theorem foldl_max_mem (xs : List Int) (x : Int) :
    xs.foldl max x = x ∨ xs.foldl max x ∈ xs := by
  induction xs generalizing x with
  | nil => left; rfl
  | cons y ys ih =>
    simp only [List.foldl_cons]
    rcases ih (max x y) with h | h
    · rcases max_choice x y with hm | hm
      · left; rw [h, hm]
      · right; rw [h, hm]; exact List.mem_cons_self _ _
    · right; exact List.mem_cons_of_mem _ h

theorem le_foldl_max_init (xs : List Int) (x : Int) : x ≤ xs.foldl max x := by
  induction xs generalizing x with
  | nil => simp
  | cons y ys ih => exact le_trans (le_max_left x y) (ih (max x y))

theorem le_foldl_max (xs : List Int) (x : Int) :
    ∀ z ∈ xs, z ≤ xs.foldl max x := by
  induction xs generalizing x with
  | nil => simp
  | cons y ys ih =>
    intro z hz
    simp only [List.foldl_cons]
    rcases List.mem_cons.mp hz with rfl | hz
    · exact le_trans (le_max_right x z) (le_foldl_max_init ys (max x z))
    · exact ih (max x y) z hz

theorem pyMax_mem (l : List Int) (hl : l ≠ []) : pyMax l ∈ l := by
  match l with
  | x :: xs =>
    rcases foldl_max_mem xs x with h | h
    · rw [pyMax, h]; exact List.mem_cons_self _ _
    · rw [pyMax]; exact List.mem_cons_of_mem _ h

theorem le_pyMax (l : List Int) : ∀ x ∈ l, x ≤ pyMax l := by
  match l with
  | [] => intro x hx; cases hx
  | x :: xs =>
    intro z hz
    rcases List.mem_cons.mp hz with rfl | hz
    · exact le_foldl_max_init xs z
    · exact le_foldl_max xs x z hz

theorem pyMax_congr (l1 l2 : List Int) (h1 : l1 ≠ []) (h2 : l2 ≠ [])
    (h : ∀ x, x ∈ l1 ↔ x ∈ l2) : pyMax l1 = pyMax l2 := by
  have a1 := pyMax_mem l1 h1
  have a2 := pyMax_mem l2 h2
  exact le_antisymm (le_pyMax l2 _ ((h _).1 a1)) (le_pyMax l1 _ ((h _).2 a2))

theorem pyMax_append_single (l : List Int) (k : Int) (h : l ≠ []) :
    pyMax (l ++ [k]) = max (pyMax l) k := by
  match l with
  | x :: xs => simp [pyMax, List.foldl_append]

theorem dget_map_fst {α : Type} (d : List (Int × α)) (k : Int) :
    dmem d k = true ↔ k ∈ d.map Prod.fst := by
  induction d with
  | nil => simp [dmem, dget]
  | cons p rest ih =>
    cases p with
    | mk k' v =>
      by_cases h : k' = k
      · subst h; simp [dmem, dget]
      · simp [dmem, dget, h, Ne.symm h, ← ih, dmem]

theorem map_fst_dset {α : Type} (d : List (Int × α)) (k : Int) (v : α) :
    (dset d k v).map Prod.fst =
      if dmem d k then d.map Prod.fst else d.map Prod.fst ++ [k] := by
  induction d with
  | nil => simp [dset, dmem, dget]
  | cons p rest ih =>
    cases p with
    | mk k' v' =>
      by_cases h : k' = k
      · subst h; simp [dset, dmem, dget]
      · simp only [dset, dmem, dget, h, if_false, List.map_cons, ih]
        split <;> simp

/-! ### Claim C2 -/

/-- C2: for every buffer state and logical line `n`, `get_line n` is total
(the embedding returns a string for every input) and resolves through
exactly the spec's lookup order inserted → modified → tombstoned →
physical, with `""` for deleted and out-of-range lines and when no file is
loaded. -/
theorem c2_get_line_lookup_order (s : VBuf) (n : Int) :
    s.get_line n = get_line_spec s n := by
  unfold VBuf.get_line get_line_spec
  cases h1 : dget s.inserted_lines n with
  | some t => simp [dmem, h1]
  | none =>
    cases h2 : dget s.edits n with
    | some t => simp [dmem, h1, h2]
    | none =>
      simp only [dmem, h1, h2, Option.isSome_none, Bool.false_eq_true, if_false]
      by_cases hd : s.deleted_lines.contains n = true
      · simp only [hd, if_true]
      · simp only [Bool.not_eq_true] at hd
        simp only [hd, Bool.false_eq_true, if_false]
        cases hf : s.file with
        | none => rfl
        | some f =>
          simp only
          by_cases hr : 0 ≤ s.logical_to_physical n ∧
              s.logical_to_physical n < (f.total_lines : Int)
          · simp only [hr, if_true, IndexedFileM.getItem]
            have : ¬ (s.logical_to_physical n < 0 ∨
                (f.total_lines : Int) ≤ s.logical_to_physical n) := by omega
            simp [this]
          · simp [hr]

/-! ### Claim C3 -/

/-- C3: on a freshly loaded 3-line file `["alpha","beta","gamma"]`, placing
the cursor at (1,0) and inserting `"X\nY"` yields `total() = 4` and lines
`["alpha","X","Ybeta","gamma"]`. -/
theorem c3_two_segment_insert :
    (((VBuf.empty.load alphaFile).set_cursor 1 0 false).insert_text
        "X\nY".toList).total = 4 ∧
    (((VBuf.empty.load alphaFile).set_cursor 1 0 false).insert_text
        "X\nY".toList).get_line 0 = "alpha".toList ∧
    (((VBuf.empty.load alphaFile).set_cursor 1 0 false).insert_text
        "X\nY".toList).get_line 1 = "X".toList ∧
    (((VBuf.empty.load alphaFile).set_cursor 1 0 false).insert_text
        "X\nY".toList).get_line 2 = "Ybeta".toList ∧
    (((VBuf.empty.load alphaFile).set_cursor 1 0 false).insert_text
        "X\nY".toList).get_line 3 = "gamma".toList := by
  refine ⟨by decide, by decide, by decide, by decide, by decide⟩

/-! ### Claim C4 -/

/-- C4: three single-character inserts `c`, `a`, `t` recorded in immediate
succession (timestamps 0,1,2, each within the 2-second merge window, each
starting where the previous ended) merge to exactly one undo-stack entry,
and one `undo()` removes the whole `"cat"`; recording `"cat "` then
`"dog"` leaves two entries (the whitespace boundary blocks merging), the
first `undo()` only removes `"dog"`, and a second `undo()` is required to
remove `"cat "`. -/
theorem c4_merge_law :
    (let st := ((UndoStackM.init catBuffer).add_command
        (mkInsertCommand 0 0 "c".toList 0 1 none 0)).add_command
        (mkInsertCommand 0 1 "a".toList 0 2 none 1) |>.add_command
        (mkInsertCommand 0 2 "t".toList 0 3 none 2)
     st.undo_stack.length = 1 ∧
       (st.undo.buffer.get_line 0 = [] ∧ st.undo.undo_stack.length = 0)) ∧
    (let st := ((UndoStackM.init catDogBuffer).add_command
        (mkInsertCommand 0 0 "cat ".toList 0 4 none 0)).add_command
        (mkInsertCommand 0 4 "dog".toList 0 7 none 1)
     st.undo_stack.length = 2 ∧
       st.undo.buffer.get_line 0 = "cat ".toList ∧
       st.undo.undo_stack.length = 1 ∧
       st.undo.undo.buffer.get_line 0 = [] ∧
       st.undo.undo.undo_stack.length = 0) := by
  constructor
  · constructor
    · decide
    · constructor <;> decide
  · refine ⟨by decide, by decide, by decide, by decide, by decide⟩

/-! ### Claim C5 -/

/-- C5: `undo()` on an empty undo stack and `redo()` on an empty redo stack
are no-ops: the whole `UndoStack` state — both stacks, the buffer (every
line, the line count, cursor and selection) and the replay flag — is
returned unchanged, and nothing can fail (the embedding is a total
function). -/
theorem c5_empty_stack_noop (st : UndoStackM) :
    (st.undo_stack = [] → st.undo = st) ∧
    (st.redo_stack = [] → st.redo = st) := by
  constructor
  · intro h; simp [UndoStackM.undo, h]
  · intro h; simp [UndoStackM.redo, h]

/-- Witness for C5 on a concrete empty stack. -/
theorem c5_witness :
    (UndoStackM.init VBuf.empty).undo_stack = [] ∧
    (UndoStackM.init VBuf.empty).undo = UndoStackM.init VBuf.empty ∧
    (UndoStackM.init VBuf.empty).redo = UndoStackM.init VBuf.empty :=
  ⟨rfl, (c5_empty_stack_noop _).1 rfl, (c5_empty_stack_noop _).2 rfl⟩

/-! ### Claim C7 -/

/-- C7 counterexample: in the 5-byte BOM-free sample `41 00 41 41 41`,
more than 40% of the bytes at odd positions are zero (1 of 2), yet
`detect_encoding` returns `"utf-8"`, not the little-endian 16-bit
encoding: the code divides the zero count by `len/2 = 2.5`, not by the
number of odd positions. -/
theorem c7_counterexample :
    countZerosAtOdd [65, 0, 65, 65, 65] * 5 >
      oddPositionCount [65, 0, 65, 65, 65] * 2 ∧
    ([65, 0, 65, 65, 65] : List Nat).take 2 ≠ [0xff, 0xfe] ∧
    ([65, 0, 65, 65, 65] : List Nat).take 2 ≠ [0xfe, 0xff] ∧
    ([65, 0, 65, 65, 65] : List Nat).take 3 ≠ [0xef, 0xbb, 0xbf] ∧
    detect_encoding [65, 0, 65, 65, 65] = some "utf-8" := by
  refine ⟨by decide, by decide, by decide, by decide, by decide⟩

/-- C7 (amended): a sample starting with `FF FE` is detected as the
little-endian 16-bit encoding; and a BOM-free sample of at least 4 bytes
whose zero bytes at odd positions number more than one fifth of the whole
sample length (the code's `zeros / (len/2) > 0.4` test, which for
even-length samples is exactly "more than 40% of the bytes at odd
positions") is also detected as the little-endian 16-bit encoding. -/
theorem c7_detect_utf16le (data : List Nat) :
    (data.take 2 = [0xff, 0xfe] → detect_encoding data = some "utf-16le") ∧
    (data.take 2 ≠ [0xff, 0xfe] → data.take 2 ≠ [0xfe, 0xff] →
      data.take 3 ≠ [0xef, 0xbb, 0xbf] → 4 ≤ data.length →
      data.length < 5 * countZerosAtOdd data →
      detect_encoding data = some "utf-16le") := by
  constructor
  · intro h; simp [detect_encoding, h]
  · intro h1 h2 h3 h4 h5
    simp [detect_encoding, h1, h2, h3, h4, h5]

/-- Witness for C7 at concrete inputs: the BOM case on `FF FE` and the
heuristic case on `41 00 42 00`. -/
theorem c7_witness :
    detect_encoding [0xff, 0xfe] = some "utf-16le" ∧
    detect_encoding [65, 0, 66, 0] = some "utf-16le" :=
  ⟨(c7_detect_utf16le [0xff, 0xfe]).1 (by decide),
   (c7_detect_utf16le [65, 0, 66, 0]).2 (by decide) (by decide) (by decide)
     (by decide) (by decide)⟩

/-! ### Claim C8 -/

/-- C8: a `VisualLineManager` over 10 logical lines of default wrap-count 1
has `visual_offset(5) = 5` and grand total 10; after `update(5, 3)`,
`visual_offset(5)` is still 5, `visual_offset(6) = 8`, and the grand total
is 12. -/
theorem c8_visual_index_scenario :
    (VisualLineManager.init 10).get_visual_offset 5 = 5 ∧
    (VisualLineManager.init 10).get_total_visual_lines = 10 ∧
    ((VisualLineManager.init 10).update 5 3).get_visual_offset 5 = 5 ∧
    ((VisualLineManager.init 10).update 5 3).get_visual_offset 6 = 8 ∧
    ((VisualLineManager.init 10).update 5 3).get_total_visual_lines = 12 := by
  refine ⟨by decide, by decide, by decide, by decide, by decide⟩

/-! ### Claim C6 -/

/-- C6 counterexample: with the `selecting_with_keyboard` flag set,
`set_cursor(0, 0, extend_selection=false)` does *not* collapse the active
selection. -/
theorem c6_counterexample :
    keyboardSelBuffer.selection.has_selection = true ∧
    (keyboardSelBuffer.set_cursor 0 0 false).selection.has_selection = true ∧
    (keyboardSelBuffer.set_cursor 0 0 false).selection ≠ SelectionM.init := by
  refine ⟨by decide, by decide, by decide⟩

/-- C6 (amended): `set_cursor(line, col, extend_selection=false)` clamps
the cursor line into `[0, total()-1]` and the column into
`[0, len(get_line(clamped line))]`, and collapses any selection *provided
the selection's `selecting_with_keyboard` flag is unset* (no code in this
repository ever sets that flag); with `extend_selection=true` it anchors a
selection at the prior cursor position when none is active and moves the
floating end to the new clamped position. -/
theorem c6_set_cursor (s : VBuf) (ln col : Int) :
    (s.selection.selecting_with_keyboard = false →
      s.set_cursor ln col false =
        { s with
            cursor_line := max 0 (min ln (s.total - 1))
            cursor_col := max 0 (min col
              ((s.get_line (max 0 (min ln (s.total - 1)))).length : Int))
            selection := SelectionM.init }) ∧
    (s.set_cursor ln col true).cursor_line = max 0 (min ln (s.total - 1)) ∧
    (s.set_cursor ln col true).cursor_col =
      max 0 (min col
        ((s.get_line (max 0 (min ln (s.total - 1)))).length : Int)) ∧
    (s.set_cursor ln col true).selection =
      (if s.selection.active = false then
        s.selection.set_start s.cursor_line s.cursor_col
      else s.selection).set_end (max 0 (min ln (s.total - 1)))
        (max 0 (min col
          ((s.get_line (max 0 (min ln (s.total - 1)))).length : Int))) := by
  refine ⟨fun h => ?_, ?_, ?_, ?_⟩ <;> simp [VBuf.set_cursor, *]

/-- `get_line` only depends on the pointwise content of the overlay maps
and the remap table. -/
theorem get_line_congr (s1 s2 : VBuf) (m : Int)
    (hins : dget s1.inserted_lines m = dget s2.inserted_lines m)
    (hed : dget s1.edits m = dget s2.edits m)
    (hdel : s1.deleted_lines.contains m = s2.deleted_lines.contains m)
    (hfile : s1.file = s2.file)
    (hoffs : s1.line_offsets = s2.line_offsets) :
    s1.get_line m = s2.get_line m := by
  unfold VBuf.get_line VBuf.logical_to_physical
  rw [hins, hed, hdel, hfile, hoffs]

/-! ### Claim C9 -/

/-- C9 counterexample: on an empty fileless buffer whose cursor line is 1
(beyond `total()-1 = 0`), inserting the newline-free `"a"` changes
`total()` from 1 to 2, so the claim's "total() unchanged" fails for this
buffer state. -/
theorem c9_counterexample :
    highCursorBuffer.selection.has_selection = false ∧
    '\n' ∉ "a".toList ∧
    highCursorBuffer.total = 1 ∧
    (highCursorBuffer.insert_text "a".toList).total = 2 := by
  refine ⟨by decide, by decide, by decide, by decide⟩

theorem dset_ne_nil {α : Type} (d : List (Int × α)) (k : Int) (v : α) :
    dset d k v ≠ [] := by
  cases d with
  | nil => simp [dset]
  | cons p rest => rw [dset]; split <;> simp

theorem pyMax_insert_middle (l1 l2 : List Int) (k : Int) (h : l1 ++ l2 ≠ []) :
    pyMax ((l1 ++ [k]) ++ l2) = max (pyMax (l1 ++ l2)) k := by
  rw [pyMax_congr ((l1 ++ [k]) ++ l2) ((l1 ++ l2) ++ [k]) (by simp) (by simp)
    (by intro x; simp; tauto)]
  exact pyMax_append_single _ k h

/-- `total` in the fileless branch, written out. -/
theorem total_none (s : VBuf) (hf : s.file = none) :
    s.total = if s.edits = [] ∧ s.inserted_lines = [] then 1
      else if s.edits.map Prod.fst ++ s.inserted_lines.map Prod.fst = [] then 1
      else max 1 (pyMax (s.edits.map Prod.fst ++ s.inserted_lines.map Prod.fst) + 1) := by
  unfold VBuf.total
  rw [hf]

/-- `total` in the file-backed branch, written out. -/
theorem total_some (s : VBuf) (f : IndexedFileM) (hf : s.file = some f) :
    s.total = if s.line_offsets = [] then (f.total_lines : Int)
      else (f.total_lines : Int) + (s.line_offsets.getLast?.getD (0, 0)).2 := by
  unfold VBuf.total
  rw [hf]

/-- `total` after a dict write `edits[ln] = v`, for `ln < total()`. -/
theorem total_eq_of_dset_edits (s1 s2 : VBuf) (ln : Int) (v : PyStr)
    (hfile : s1.file = s2.file) (hoffs : s1.line_offsets = s2.line_offsets)
    (hins : s1.inserted_lines = s2.inserted_lines)
    (hed : s1.edits = dset s2.edits ln v)
    (hlt : ln < s2.total) : s1.total = s2.total := by
  cases hf : s2.file with
  | some f =>
    have h1 : s1.file = some f := by rw [hfile, hf]
    rw [total_some s1 f h1, total_some s2 f hf, hoffs]
  | none =>
    have h1 : s1.file = none := by rw [hfile, hf]
    rw [total_none s1 h1, total_none s2 hf, hins, hed, map_fst_dset]
    rw [total_none s2 hf] at hlt
    have hc1 : ¬ (dset s2.edits ln v = [] ∧ s2.inserted_lines = []) :=
      fun h => dset_ne_nil _ _ _ h.1
    by_cases hm : dmem s2.edits ln
    · have hed_ne : s2.edits ≠ [] := by
        intro h; rw [h] at hm; simp [dmem, dget] at hm
      have hc2 : ¬ (s2.edits = [] ∧ s2.inserted_lines = []) := fun h => hed_ne h.1
      rw [if_pos hm, if_neg hc1, if_neg hc2]
    · rw [if_neg hm, if_neg hc1]
      by_cases hemp : s2.edits = [] ∧ s2.inserted_lines = []
      · rw [if_pos hemp] at hlt
        rw [if_pos hemp]
        obtain ⟨he, hi⟩ := hemp
        rw [he, hi]
        simp only [List.map_nil, List.nil_append, List.append_nil]
        have h2 : ([ln] : List Int) ≠ [] := by simp
        rw [if_neg h2]
        simp only [pyMax, List.foldl_nil]
        omega
      · rw [if_neg hemp] at hlt
        rw [if_neg hemp]
        have hkeys_ne : s2.edits.map Prod.fst ++ s2.inserted_lines.map Prod.fst ≠ [] := by
          intro h
          rcases List.append_eq_nil.mp h with ⟨ha, hb⟩
          exact hemp ⟨List.map_eq_nil_iff.mp ha, List.map_eq_nil_iff.mp hb⟩
        rw [if_neg hkeys_ne] at hlt ⊢
        have hkeys2 : (s2.edits.map Prod.fst ++ [ln]) ++
            s2.inserted_lines.map Prod.fst ≠ [] := by simp
        rw [if_neg hkeys2, pyMax_insert_middle _ _ _ hkeys_ne]
        omega

/-- `total` after a dict write `inserted_lines[ln] = v`, for `ln < total()`. -/
theorem total_eq_of_dset_ins (s1 s2 : VBuf) (ln : Int) (v : PyStr)
    (hfile : s1.file = s2.file) (hoffs : s1.line_offsets = s2.line_offsets)
    (hins : s1.inserted_lines = dset s2.inserted_lines ln v)
    (hed : s1.edits = s2.edits)
    (hlt : ln < s2.total) : s1.total = s2.total := by
  cases hf : s2.file with
  | some f =>
    have h1 : s1.file = some f := by rw [hfile, hf]
    rw [total_some s1 f h1, total_some s2 f hf, hoffs]
  | none =>
    have h1 : s1.file = none := by rw [hfile, hf]
    rw [total_none s1 h1, total_none s2 hf, hins, hed, map_fst_dset]
    rw [total_none s2 hf] at hlt
    have hc1 : ¬ (s2.edits = [] ∧ dset s2.inserted_lines ln v = []) :=
      fun h => dset_ne_nil _ _ _ h.2
    by_cases hm : dmem s2.inserted_lines ln
    · have hins_ne : s2.inserted_lines ≠ [] := by
        intro h; rw [h] at hm; simp [dmem, dget] at hm
      have hc2 : ¬ (s2.edits = [] ∧ s2.inserted_lines = []) := fun h => hins_ne h.2
      rw [if_pos hm, if_neg hc1, if_neg hc2]
    · rw [if_neg hm, if_neg hc1]
      by_cases hemp : s2.edits = [] ∧ s2.inserted_lines = []
      · rw [if_pos hemp] at hlt
        rw [if_pos hemp]
        obtain ⟨he, hi⟩ := hemp
        rw [he, hi]
        simp only [List.map_nil, List.nil_append, List.append_nil]
        have h2 : ([ln] : List Int) ≠ [] := by simp
        rw [if_neg h2]
        simp only [pyMax, List.foldl_nil]
        omega
      · rw [if_neg hemp] at hlt
        rw [if_neg hemp]
        have hkeys_ne : s2.edits.map Prod.fst ++ s2.inserted_lines.map Prod.fst ≠ [] := by
          intro h
          rcases List.append_eq_nil.mp h with ⟨ha, hb⟩
          exact hemp ⟨List.map_eq_nil_iff.mp ha, List.map_eq_nil_iff.mp hb⟩
        rw [if_neg hkeys_ne] at hlt ⊢
        have hkeys2 : s2.edits.map Prod.fst ++
            (s2.inserted_lines.map Prod.fst ++ [ln]) ≠ [] := by simp
        rw [if_neg hkeys2, ← List.append_assoc, pyMax_append_single _ _ hkeys_ne]
        omega

/-- C9 (amended): for every buffer state with no active selection *whose
cursor line is within the buffer* (`cursor_line < total()`), inserting a
newline-free text changes only the cursor line: every other logical line,
`total()`, the line-offset table and `cursor_line` are unchanged, and
`cursor_col` advances by the inserted length. -/
theorem c9_single_line_insert_frame (s : VBuf) (t : PyStr)
    (hsel : s.selection.has_selection = false)
    (hnl : '\n' ∉ t)
    (hcl : s.cursor_line < s.total) :
    (∀ m, m ≠ s.cursor_line → (s.insert_text t).get_line m = s.get_line m) ∧
    (s.insert_text t).total = s.total ∧
    (s.insert_text t).line_offsets = s.line_offsets ∧
    (s.insert_text t).cursor_line = s.cursor_line ∧
    (s.insert_text t).cursor_col = s.cursor_col + t.length := by
  have hparts : t.splitOn '\n' = [t] := splitOn_of_not_mem hnl
  unfold VBuf.insert_text
  simp only [hsel, Bool.false_eq_true, if_false, hparts, List.length_cons,
    List.length_nil, if_true]
  by_cases hm : dmem s.inserted_lines s.cursor_line
  · simp only [hm, if_true]
    refine ⟨?_, ?_, by trivial, by trivial, by trivial⟩
    · intro m hmne
      exact get_line_congr _ _ m
        (by rw [dget_dset, if_neg (fun h => hmne h.symm)]) rfl rfl rfl rfl
    · exact total_eq_of_dset_ins _ s s.cursor_line _ rfl rfl rfl rfl hcl
  · simp only [hm, Bool.false_eq_true, if_false]
    refine ⟨?_, ?_, by trivial, by trivial, by trivial⟩
    · intro m hmne
      exact get_line_congr _ _ m rfl
        (by rw [dget_dset, if_neg (fun h => hmne h.symm)]) rfl rfl rfl
    · exact total_eq_of_dset_edits _ s s.cursor_line _ rfl rfl rfl rfl hcl

/-- Witness for C9 at a concrete buffer and text. -/
theorem c9_witness :
    (((VBuf.empty.load alphaFile).set_cursor 0 2 false).insert_text
        "zz".toList).total =
      ((VBuf.empty.load alphaFile).set_cursor 0 2 false).total ∧
    (((VBuf.empty.load alphaFile).set_cursor 0 2 false).insert_text
        "zz".toList).get_line 1 =
      ((VBuf.empty.load alphaFile).set_cursor 0 2 false).get_line 1 :=
  ⟨(c9_single_line_insert_frame _ _ (by decide) (by decide) (by decide)).2.1,
   (c9_single_line_insert_frame _ _ (by decide) (by decide) (by decide)).1 1
     (by decide)⟩

/-! ### Claim C10 -/

theorem take_set_of_le {α : Type} (l : List α) (p n : Nat) (v : α)
    (h : n ≤ p) : (l.set p v).take n = l.take n := by
  induction l generalizing p n with
  | nil => simp
  | cons x xs ih =>
    cases n with
    | zero => simp
    | succ n' =>
      cases p with
      | zero => omega
      | succ p' =>
        simp only [List.set_cons_succ, List.take_succ_cons]
        rw [ih p' n' (by omega)]

theorem drop_set_of_le {α : Type} (l : List α) (p n : Nat) (v : α)
    (h : n ≤ p) : (l.set p v).drop n = (l.drop n).set (p - n) v := by
  induction l generalizing p n with
  | nil => simp
  | cons x xs ih =>
    cases n with
    | zero => simp
    | succ n' =>
      cases p with
      | zero => omega
      | succ p' =>
        simp only [List.set_cons_succ, List.drop_succ_cons]
        rw [ih p' n' (by omega)]
        congr 1
        omega

theorem drop_set_of_lt {α : Type} (l : List α) (p n : Nat) (v : α)
    (h : p < n) : (l.set p v).drop n = l.drop n := by
  induction l generalizing p n with
  | nil => simp
  | cons x xs ih =>
    cases n with
    | zero => omega
    | succ n' =>
      cases p with
      | zero => simp
      | succ p' =>
        simp only [List.set_cons_succ, List.drop_succ_cons]
        exact ih p' n' (by omega)

theorem take_set_of_lt {α : Type} (l : List α) (p n : Nat) (v : α)
    (h : p < n) : (l.set p v).take n = (l.take n).set p v := by
  induction l generalizing p n with
  | nil => simp
  | cons x xs ih =>
    cases n with
    | zero => omega
    | succ n' =>
      cases p with
      | zero => simp
      | succ p' =>
        simp only [List.set_cons_succ, List.take_succ_cons]
        rw [ih p' n' (by omega)]

theorem sum_set_nat (l : List Nat) (p v : Nat) (h : p < l.length) :
    (l.set p v).sum + l.getD p 0 = l.sum + v := by
  induction l generalizing p with
  | nil => simp at h
  | cons x xs ih =>
    cases p with
    | zero => simp [List.getD]; omega
    | succ p' =>
      simp only [List.set_cons_succ, List.sum_cons, List.getD_cons_succ]
      have := ih p' (by simpa using h)
      omega

theorem getD_slice (l : List Nat) (a k j : Nat) (hj : j < k)
    (hl : a + j < l.length) :
    ((l.drop a).take k).getD j 0 = l.getD (a + j) 0 := by
  have h1 : j < ((l.drop a).take k).length := by
    simp only [List.length_take, List.length_drop]
    omega
  have h2 : j < (l.drop a).length := by
    simp only [List.length_drop]; omega
  rw [List.getD_eq_getElem?_getD, List.getElem?_eq_getElem h1,
    List.getD_eq_getElem?_getD, List.getElem?_eq_getElem hl]
  simp only [Option.getD_some]
  rw [List.getElem_take, List.getElem_drop]

theorem chunkSum_set_ne (l : List Nat) (p v : Nat) (q : Nat)
    (hq : q ≠ p / CHUNK_SIZE) :
    chunkSum (l.set p v) q = chunkSum l q := by
  unfold chunkSum
  rw [List.length_set]
  rcases Nat.lt_or_ge p (q * CHUNK_SIZE) with hlt | hge
  · rw [drop_set_of_lt _ _ _ _ hlt]
  · have hup : q * CHUNK_SIZE + CHUNK_SIZE ≤ p := by
      simp only [CHUNK_SIZE] at hq hge ⊢
      omega
    rw [drop_set_of_le _ _ _ _ hge]
    rw [take_set_of_le]
    omega

theorem chunkSum_set_eq (l : List Nat) (p v : Nat) (hp : p < l.length) :
    chunkSum (l.set p v) (p / CHUNK_SIZE) =
      chunkSum l (p / CHUNK_SIZE) + (v : Int) - (l.getD p 0 : Int) := by
  unfold chunkSum
  rw [List.length_set]
  set q := p / CHUNK_SIZE with hq
  have hge : q * CHUNK_SIZE ≤ p := Nat.div_mul_le_self _ _
  have hupper : p < q * CHUNK_SIZE + CHUNK_SIZE := by
    rw [hq]
    simp only [CHUNK_SIZE]
    omega
  set k := min (q * CHUNK_SIZE + CHUNK_SIZE) l.length - q * CHUNK_SIZE with hk
  have hjk : p - q * CHUNK_SIZE < k := by omega
  rw [drop_set_of_le _ _ _ _ hge, take_set_of_lt _ _ _ _ hjk]
  have hlen : p - q * CHUNK_SIZE < ((l.drop (q * CHUNK_SIZE)).take k).length := by
    simp only [List.length_take, List.length_drop]
    omega
  have hsum := sum_set_nat ((l.drop (q * CHUNK_SIZE)).take k)
    (p - q * CHUNK_SIZE) v hlen
  have hgd : ((l.drop (q * CHUNK_SIZE)).take k).getD (p - q * CHUNK_SIZE) 0 =
      l.getD p 0 := by
    have := getD_slice l (q * CHUNK_SIZE) k (p - q * CHUNK_SIZE) hjk
      (by omega)
    rw [this]
    congr 1
    omega
  rw [hgd] at hsum
  omega

theorem length_chunkSums (l : List Nat) :
    (chunkSums l).length = (l.length + CHUNK_SIZE - 1) / CHUNK_SIZE := by
  simp [chunkSums]

theorem getD_chunkSums (l : List Nat) (i : Nat)
    (hi : i < (l.length + CHUNK_SIZE - 1) / CHUNK_SIZE) :
    (chunkSums l).getD i 0 = chunkSum l i := by
  unfold chunkSums
  rw [List.getD_eq_getElem?_getD, List.getElem?_map, List.getElem?_range hi]
  rfl

theorem chunkSums_sum (l : List Nat) : (chunkSums l).sum = (l.sum : Int) := by
  generalize hn : l.length = n
  induction n using Nat.strong_induction_on generalizing l with
  | _ n ih =>
    by_cases h : l = []
    · subst h
      rw [show chunkSums ([] : List Nat) = [] from rfl]
      simp
    · have hpos : 0 < n := by
        rw [← hn]; exact List.length_pos.mpr h
      have hceil : (n + CHUNK_SIZE - 1) / CHUNK_SIZE =
          ((n - CHUNK_SIZE) + CHUNK_SIZE - 1) / CHUNK_SIZE + 1 := by
        simp only [CHUNK_SIZE]
        omega
      have hdroplen : (l.drop CHUNK_SIZE).length = n - CHUNK_SIZE := by
        simp [hn]
      have hshift : ∀ i, chunkSum l (i + 1) = chunkSum (l.drop CHUNK_SIZE) i := by
        intro i
        unfold chunkSum
        rw [hdroplen, hn]
        have e1 : (l.drop CHUNK_SIZE).drop (i * CHUNK_SIZE) =
            l.drop ((i + 1) * CHUNK_SIZE) := by
          rw [List.drop_drop]
          congr 1
          ring
        rw [e1]
        have e2 : min ((i + 1) * CHUNK_SIZE + CHUNK_SIZE) n - (i + 1) * CHUNK_SIZE =
            min (i * CHUNK_SIZE + CHUNK_SIZE) (n - CHUNK_SIZE) - i * CHUNK_SIZE := by
          simp only [CHUNK_SIZE]
          omega
        rw [e2]
      have hfirst : chunkSum l 0 = ((l.take CHUNK_SIZE).sum : Int) := by
        unfold chunkSum
        rw [hn]
        rcases le_or_lt CHUNK_SIZE n with hc | hc
        · have e3 : min (0 * CHUNK_SIZE + CHUNK_SIZE) n - 0 * CHUNK_SIZE =
              CHUNK_SIZE := by
            simp only [CHUNK_SIZE] at hc ⊢
            omega
          rw [e3, Nat.zero_mul, List.drop_zero]
        · have e3 : min (0 * CHUNK_SIZE + CHUNK_SIZE) n - 0 * CHUNK_SIZE = n := by
            simp only [CHUNK_SIZE] at hc ⊢
            omega
          rw [e3, Nat.zero_mul, List.drop_zero, ← hn, List.take_length,
            List.take_of_length_le (by
              rw [hn]
              simp only [CHUNK_SIZE] at hc ⊢
              omega)]
      have : chunkSums l = chunkSum l 0 ::
          ((List.range ((n - CHUNK_SIZE + CHUNK_SIZE - 1) / CHUNK_SIZE)).map
            (fun i => chunkSum l (i + 1))) := by
        unfold chunkSums
        rw [hn, hceil, List.range_succ_eq_map]
        simp only [List.map_cons, List.map_map]
        rfl
      rw [this]
      simp only [List.sum_cons]
      have hmap : (List.range ((n - CHUNK_SIZE + CHUNK_SIZE - 1) / CHUNK_SIZE)).map
          (fun i => chunkSum l (i + 1)) = chunkSums (l.drop CHUNK_SIZE) := by
        unfold chunkSums
        rw [hdroplen]
        exact List.map_congr_left (fun i _ => hshift i)
      rw [hmap, hfirst,
        ih (n - CHUNK_SIZE) (by simp only [CHUNK_SIZE]; omega) _ hdroplen]
      rw [← Nat.cast_add, List.sum_take_add_sum_drop]

theorem VLMInv_rebuild (vm : VisualLineManager)
    (hmem : ∀ c ∈ vm.counts, 1 ≤ c ∧ c ≤ 255) :
    VLMInv vm.rebuild_chunks := by
  refine ⟨hmem, rfl, ?_⟩
  show (chunkSums vm.counts).foldl (· + ·) 0 = _
  rw [← List.sum_eq_foldl, chunkSums_sum]
  rfl

theorem VLMInv_init (n : Nat) : VLMInv (VisualLineManager.init n) := by
  refine ⟨?_, ?_, ?_⟩
  · intro c hc
    rcases (List.mem_replicate.mp hc) with ⟨_, rfl⟩
    omega
  · show _ = chunkSums (List.replicate n 1)
    unfold chunkSums VisualLineManager.init
    simp only [List.length_replicate]
    refine List.map_congr_left fun i _ => ?_
    unfold chunkSum
    rw [List.length_replicate, List.drop_replicate, List.take_replicate,
      List.sum_replicate]
    simp only [smul_eq_mul, Nat.mul_one]
    congr 1
    omega
  · simp [VisualLineManager.init]

theorem VLMInv_update (vm : VisualLineManager) (hInv : VLMInv vm)
    (line vc : Int) : VLMInv (vm.update line vc) := by
  obtain ⟨hmem, hch, htot⟩ := hInv
  unfold VisualLineManager.update
  by_cases hr : line < 0 ∨ (vm.counts.length : Int) ≤ line
  · simp only [hr, if_true]
    exact ⟨hmem, hch, htot⟩
  · simp only [hr, if_false]
    push_neg at hr
    obtain ⟨hr0, hrlen⟩ := hr
    set i := line.toNat with hi
    have hilen : i < vm.counts.length := by omega
    by_cases heq : (vm.counts.getD i 0 : Int) = min 255 (max 1 vc)
    · simp only [heq, if_true]
      exact ⟨hmem, hch, htot⟩
    · simp only [heq, if_false]
      set vc' := min 255 (max 1 vc) with hvc
      have hvc1 : 1 ≤ vc' := by omega
      have hvc255 : vc' ≤ 255 := by omega
      have hvcn : vc'.toNat = vc' := by omega
      have hchidx : i / CHUNK_SIZE < vm.chunk_sums.length := by
        rw [hch, length_chunkSums]
        simp only [CHUNK_SIZE] at hilen ⊢
        omega
      refine ⟨?_, ?_, ?_⟩
      · intro c hc
        rcases List.mem_or_eq_of_mem_set hc with hc | rfl
        · exact hmem c hc
        · omega
      · simp only [hchidx, if_true]
        have hlenEq : ((chunkSums vm.counts).mapIdx fun j x =>
            if j = i / CHUNK_SIZE then x + (vc' - (vm.counts.getD i 0 : Int))
            else x).length = (chunkSums (vm.counts.set i vc'.toNat)).length := by
          rw [List.length_mapIdx, length_chunkSums, length_chunkSums,
            List.length_set]
        rw [hch]
        apply List.ext_getElem
        · exact hlenEq
        · intro j h1 h2
          rw [List.getElem_mapIdx]
          have hj : j < (chunkSums vm.counts).length := by
            rw [List.length_mapIdx] at h1; exact h1
          have hjlt : j < (vm.counts.length + CHUNK_SIZE - 1) / CHUNK_SIZE := by
            rw [length_chunkSums] at hj; exact hj
          have hjlt2 : j < ((vm.counts.set i vc'.toNat).length + CHUNK_SIZE - 1) /
              CHUNK_SIZE := by rw [List.length_set]; exact hjlt
          have e1 : (chunkSums vm.counts)[j] = chunkSum vm.counts j := by
            have := getD_chunkSums vm.counts j hjlt
            rw [List.getD_eq_getElem?_getD, List.getElem?_eq_getElem hj] at this
            simpa using this
          have e2 : (chunkSums (vm.counts.set i vc'.toNat))[j] =
              chunkSum (vm.counts.set i vc'.toNat) j := by
            have := getD_chunkSums (vm.counts.set i vc'.toNat) j hjlt2
            rw [List.getD_eq_getElem?_getD, List.getElem?_eq_getElem h2] at this
            simpa using this
          rw [e1, e2]
          by_cases hji : j = i / CHUNK_SIZE
          · subst hji
            rw [chunkSum_set_eq vm.counts i vc'.toNat hilen]
            simp only [if_true]
            rw [hvcn]
            ring
          · rw [chunkSum_set_ne vm.counts i vc'.toNat j hji]
            simp only [hji, if_false]
      · show vm.total_visual_lines + (vc' - (vm.counts.getD i 0 : Int)) =
            ((vm.counts.set i vc'.toNat).sum : Int)
        rw [htot]
        have hsum := sum_set_nat vm.counts i vc'.toNat hilen
        have hsumZ : ((vm.counts.set i vc'.toNat).sum : Int) +
            (vm.counts.getD i 0 : Int) =
            (vm.counts.sum : Int) + (vc'.toNat : Int) := by
          exact_mod_cast hsum
        rw [hvcn] at hsumZ
        omega

theorem mem_pyListInsert (l : List Nat) (i : Int) (v c : Nat)
    (h : c ∈ VisualLineManager.pyListInsert l i v) : c ∈ l ∨ c = v := by
  unfold VisualLineManager.pyListInsert at h
  rcases List.mem_append.mp h with h | h
  · exact Or.inl (List.mem_of_mem_take h)
  · rcases List.mem_cons.mp h with h | h
    · exact Or.inr h
    · exact Or.inl (List.mem_of_mem_drop h)

theorem mem_insertLoop (i : Int) (v c : Nat) :
    ∀ (k : Nat) (l : List Nat), c ∈ VisualLineManager.insertLoop l i v k →
      c ∈ l ∨ c = v := by
  intro k
  induction k with
  | zero => intro l h; exact Or.inl h
  | succ k' ih =>
    intro l h
    rcases ih _ h with h' | h'
    · rcases mem_pyListInsert l i v c h' with h'' | h''
      · exact Or.inl h''
      · exact Or.inr h''
    · exact Or.inr h'

theorem VLMInv_insert (vm : VisualLineManager) (hInv : VLMInv vm)
    (line cnt vc : Int) : VLMInv (vm.insert line cnt vc) := by
  obtain ⟨hmem, _, _⟩ := hInv
  unfold VisualLineManager.insert
  have hvc1 : 1 ≤ (min 255 (max 1 vc)).toNat := by omega
  have hvc255 : (min 255 (max 1 vc)).toNat ≤ 255 := by omega
  apply VLMInv_rebuild
  intro c hc
  simp only at hc
  split at hc
  · rcases List.mem_append.mp hc with h | h
    · exact hmem c h
    · rcases (List.mem_replicate.mp h) with ⟨_, rfl⟩
      exact ⟨hvc1, hvc255⟩
  · rcases mem_insertLoop line _ c cnt.toNat vm.counts hc with h | h
    · exact hmem c h
    · subst h
      exact ⟨hvc1, hvc255⟩

theorem VLMInv_delete (vm : VisualLineManager) (hInv : VLMInv vm)
    (line cnt : Int) : VLMInv (vm.delete line cnt) := by
  obtain ⟨hmem, hch, htot⟩ := hInv
  unfold VisualLineManager.delete
  split
  · exact ⟨hmem, hch, htot⟩
  · apply VLMInv_rebuild
    intro c hc
    simp only at hc
    split at hc
    · exact hmem c hc
    · rcases List.mem_append.mp hc with h | h
      · exact hmem c (List.mem_of_mem_take h)
      · exact hmem c (List.mem_of_mem_drop h)

theorem VLMInv_applyOps (vm : VisualLineManager) (hInv : VLMInv vm)
    (ops : List VLMOp) : VLMInv (applyOps vm ops) := by
  induction ops generalizing vm with
  | nil => exact hInv
  | cons op ops ih =>
    show VLMInv (applyOps (applyOp vm op) ops)
    apply ih
    cases op with
    | update line vc => exact VLMInv_update vm hInv line vc
    | insert line cnt vc => exact VLMInv_insert vm hInv line cnt vc
    | delete line cnt => exact VLMInv_delete vm hInv line cnt

/-- C10: after any sequence of `update` / `insert` / `delete` calls on a
`VisualLineManager` initialized with `n` logical lines, every per-line wrap
count lies in `[1, 255]`, the stored grand total equals the sum of all
per-line counts, and every cached chunk sum equals the sum of the counts
in its chunk. -/
theorem c10_consistency_invariant (n : Nat) (ops : List VLMOp) :
    (∀ c ∈ (applyOps (VisualLineManager.init n) ops).counts,
      1 ≤ c ∧ c ≤ 255) ∧
    (applyOps (VisualLineManager.init n) ops).total_visual_lines =
      (((applyOps (VisualLineManager.init n) ops).counts.sum : Nat) : Int) ∧
    (∀ i, i < (applyOps (VisualLineManager.init n) ops).chunk_sums.length →
      (applyOps (VisualLineManager.init n) ops).chunk_sums.getD i 0 =
        chunkSum (applyOps (VisualLineManager.init n) ops).counts i) := by
  have hInv := VLMInv_applyOps (VisualLineManager.init n) (VLMInv_init n) ops
  obtain ⟨hmem, hch, htot⟩ := hInv
  refine ⟨hmem, htot, ?_⟩
  intro i hi
  rw [hch]
  rw [hch, length_chunkSums] at hi
  exact getD_chunkSums _ i hi

/-- Witness for C10 at a concrete initialization and call sequence. -/
theorem c10_witness :
    ((1 : Nat) ∈ (applyOps (VisualLineManager.init 3)
        [VLMOp.update 1 2]).counts ∧ (1 ≤ (1 : Nat) ∧ (1 : Nat) ≤ 255)) ∧
    (applyOps (VisualLineManager.init 3) [VLMOp.update 1 2]).total_visual_lines =
      (((applyOps (VisualLineManager.init 3) [VLMOp.update 1 2]).counts.sum :
        Nat) : Int) ∧
    (0 < (applyOps (VisualLineManager.init 3)
        [VLMOp.update 1 2]).chunk_sums.length ∧
      (applyOps (VisualLineManager.init 3)
          [VLMOp.update 1 2]).chunk_sums.getD 0 0 =
        chunkSum (applyOps (VisualLineManager.init 3)
          [VLMOp.update 1 2]).counts 0) :=
  ⟨⟨by decide, (c10_consistency_invariant 3 [VLMOp.update 1 2]).1 1 (by decide)⟩,
   (c10_consistency_invariant 3 [VLMOp.update 1 2]).2.1,
   by decide,
   (c10_consistency_invariant 3 [VLMOp.update 1 2]).2.2 0 (by decide)⟩

/-! ### Claim C1: infrastructure for the remap table -/

theorem getD_mono_of_pairwise_lt (ks : List Int)
    (h : List.Pairwise (· < ·) ks) (i j : Nat) (hij : i ≤ j)
    (hj : j < ks.length) : ks.getD i 0 ≤ ks.getD j 0 := by
  rcases Nat.eq_or_lt_of_le hij with rfl | hlt
  · exact le_refl _
  · rw [List.getD_eq_getElem _ _ (by omega), List.getD_eq_getElem _ _ hj]
    exact le_of_lt (List.pairwise_iff_getElem.mp h i j (by omega) hj hlt)

theorem bisectRightGo_spec (a : List Int) (x : Int)
    (hsort : List.Pairwise (· < ·) a) :
    ∀ (fuel lo hi : Nat), hi ≤ a.length → lo ≤ hi → hi - lo ≤ fuel →
      (∀ i, i < lo → a.getD i 0 ≤ x) →
      (∀ i, hi ≤ i → i < a.length → x < a.getD i 0) →
      lo ≤ bisectRightGo a x fuel lo hi ∧
      bisectRightGo a x fuel lo hi ≤ hi ∧
      (∀ i, i < bisectRightGo a x fuel lo hi → a.getD i 0 ≤ x) ∧
      (∀ i, bisectRightGo a x fuel lo hi ≤ i → i < a.length →
        x < a.getD i 0) := by
  intro fuel
  induction fuel with
  | zero =>
    intro lo hi hh hlh hf hlow hhigh
    have : lo = hi := by omega
    subst this
    exact ⟨le_refl _, le_refl _, hlow, fun i h1 h2 => hhigh i h1 h2⟩
  | succ f ih =>
    intro lo hi hh hlh hf hlow hhigh
    rw [bisectRightGo]
    by_cases hlt : lo < hi
    · rw [if_pos hlt]
      have hmlo : lo ≤ (lo + hi) / 2 := by omega
      have hmhi : (lo + hi) / 2 < hi := by omega
      by_cases hx : x < a.getD ((lo + hi) / 2) 0
      · rw [if_pos hx]
        have := ih lo ((lo + hi) / 2) (by omega) (by omega) (by omega) hlow
          (fun i h1 h2 =>
            lt_of_lt_of_le hx (getD_mono_of_pairwise_lt a hsort _ i h1 h2))
        exact ⟨this.1, le_trans this.2.1 (le_of_lt hmhi), this.2.2⟩
      · rw [if_neg hx]
        have hax : a.getD ((lo + hi) / 2) 0 ≤ x := not_lt.mp hx
        have := ih ((lo + hi) / 2 + 1) hi hh (by omega) (by omega)
          (fun i h1 =>
            le_trans (getD_mono_of_pairwise_lt a hsort i _ (by omega)
              (by omega)) hax)
          hhigh
        exact ⟨le_trans (by omega) this.1, this.2.1, this.2.2⟩
    · rw [if_neg hlt]
      have : lo = hi := by omega
      subst this
      exact ⟨le_refl _, le_refl _, hlow, fun i h1 h2 => hhigh i h1 h2⟩

theorem bisectRight_spec (a : List Int) (x : Int)
    (hsort : List.Pairwise (· < ·) a) :
    bisectRight a x ≤ a.length ∧
    (∀ i, i < bisectRight a x → a.getD i 0 ≤ x) ∧
    (∀ i, bisectRight a x ≤ i → i < a.length → x < a.getD i 0) := by
  have := bisectRightGo_spec a x hsort a.length 0 a.length (le_refl _)
    (by omega) (by omega) (fun i h => absurd h (by omega))
    (fun i h1 h2 => absurd (lt_of_le_of_lt h1 h2) (lt_irrefl _))
  exact ⟨this.2.1, this.2.2.1, this.2.2.2⟩

theorem bisectLeftGo_spec (a : List Int) (x : Int)
    (hsort : List.Pairwise (· < ·) a) :
    ∀ (fuel lo hi : Nat), hi ≤ a.length → lo ≤ hi → hi - lo ≤ fuel →
      (∀ i, i < lo → a.getD i 0 < x) →
      (∀ i, hi ≤ i → i < a.length → x ≤ a.getD i 0) →
      lo ≤ bisectLeftGo a x fuel lo hi ∧
      bisectLeftGo a x fuel lo hi ≤ hi ∧
      (∀ i, i < bisectLeftGo a x fuel lo hi → a.getD i 0 < x) ∧
      (∀ i, bisectLeftGo a x fuel lo hi ≤ i → i < a.length →
        x ≤ a.getD i 0) := by
  intro fuel
  induction fuel with
  | zero =>
    intro lo hi hh hlh hf hlow hhigh
    have : lo = hi := by omega
    subst this
    exact ⟨le_refl _, le_refl _, hlow, fun i h1 h2 => hhigh i h1 h2⟩
  | succ f ih =>
    intro lo hi hh hlh hf hlow hhigh
    rw [bisectLeftGo]
    by_cases hlt : lo < hi
    · rw [if_pos hlt]
      have hmlo : lo ≤ (lo + hi) / 2 := by omega
      have hmhi : (lo + hi) / 2 < hi := by omega
      by_cases hx : a.getD ((lo + hi) / 2) 0 < x
      · rw [if_pos hx]
        have := ih ((lo + hi) / 2 + 1) hi hh (by omega) (by omega)
          (fun i h1 =>
            lt_of_le_of_lt (getD_mono_of_pairwise_lt a hsort i _ (by omega)
              (by omega)) hx)
          hhigh
        exact ⟨le_trans (by omega) this.1, this.2.1, this.2.2⟩
      · rw [if_neg hx]
        have hax : x ≤ a.getD ((lo + hi) / 2) 0 := not_lt.mp hx
        have := ih lo ((lo + hi) / 2) (by omega) (by omega) (by omega) hlow
          (fun i h1 h2 =>
            le_trans hax (getD_mono_of_pairwise_lt a hsort _ i h1 h2))
        exact ⟨this.1, le_trans this.2.1 (le_of_lt hmhi), this.2.2⟩
    · rw [if_neg hlt]
      have : lo = hi := by omega
      subst this
      exact ⟨le_refl _, le_refl _, hlow, fun i h1 h2 => hhigh i h1 h2⟩

theorem bisectLeft_spec (a : List Int) (x : Int)
    (hsort : List.Pairwise (· < ·) a) :
    bisectLeft a x ≤ a.length ∧
    (∀ i, i < bisectLeft a x → a.getD i 0 < x) ∧
    (∀ i, bisectLeft a x ≤ i → i < a.length → x ≤ a.getD i 0) := by
  have := bisectLeftGo_spec a x hsort a.length 0 a.length (le_refl _)
    (by omega) (by omega) (fun i h => absurd h (by omega))
    (fun i h1 h2 => absurd (lt_of_le_of_lt h1 h2) (lt_irrefl _))
  exact ⟨this.2.1, this.2.2.1, this.2.2.2⟩

theorem bisectLeftGo_le (a : List Int) (x : Int) :
    ∀ (fuel lo hi : Nat), lo ≤ hi → bisectLeftGo a x fuel lo hi ≤ hi := by
  intro fuel
  induction fuel with
  | zero => intro lo hi h; exact h
  | succ f ih =>
    intro lo hi h
    rw [bisectLeftGo]
    by_cases hlt : lo < hi
    · rw [if_pos hlt]
      split
      · exact ih _ _ (by omega)
      · exact le_trans (ih _ _ (by omega)) (by omega)
    · rw [if_neg hlt]; exact h

theorem bisectLeft_le (a : List Int) (x : Int) : bisectLeft a x ≤ a.length :=
  bisectLeftGo_le a x a.length 0 a.length (by omega)

theorem shiftFold_acc_const (q : Int) :
    ∀ (l : List (Int × Int)) (acc : Int), (∀ p ∈ l, ¬ p.1 ≤ q) →
      l.foldl (fun acc p => if p.1 ≤ q then p.2 else acc) acc = acc := by
  intro l
  induction l with
  | nil => intro acc _; rfl
  | cons p rest ih =>
    intro acc h
    simp only [List.foldl_cons]
    rw [if_neg (h p (List.mem_cons_self _ _))]
    exact ih acc (fun p' hp' => h p' (List.mem_cons_of_mem _ hp'))

theorem getD_map_fst (offs : List (Int × Int)) (i : Nat)
    (h : i < offs.length) :
    (offs.map Prod.fst).getD i 0 = (offs.getD i (0, 0)).1 := by
  rw [List.getD_eq_getElem _ _ (by simpa using h), List.getD_eq_getElem _ _ h]
  simp

/-- The value of `shiftFold` read off any boundary `r` that separates the
`≤ q` entries from the `> q` entries. -/
theorem shiftFold_boundary (offs : List (Int × Int)) (q : Int) (r : Nat)
    (hr : r ≤ offs.length)
    (hlow : ∀ i, i < r → (offs.getD i (0, 0)).1 ≤ q)
    (hhigh : ∀ i, r ≤ i → i < offs.length → q < (offs.getD i (0, 0)).1) :
    shiftFold offs q = if r = 0 then 0 else (offs.getD (r - 1) (0, 0)).2 := by
  cases r with
  | zero =>
    simp only [if_true]
    apply shiftFold_acc_const
    intro p hp
    rcases List.mem_iff_getElem.mp hp with ⟨i, hi, rfl⟩
    have := hhigh i (by omega) hi
    rw [List.getD_eq_getElem _ _ hi] at this
    omega
  | succ r' =>
    have hr' : r' < offs.length := by omega
    have hdec : offs = offs.take r' ++ offs.getD r' (0, 0) :: offs.drop (r' + 1) := by
      rw [List.getD_eq_getElem _ _ hr', ← List.drop_eq_getElem_cons hr',
        List.take_append_drop]
    simp only [Nat.succ_ne_zero, if_false, Nat.succ_sub_one]
    unfold shiftFold
    conv_lhs => rw [hdec]
    rw [List.foldl_append, List.foldl_cons]
    rw [if_pos (hlow r' (by omega))]
    rw [List.getD_eq_getElem _ _ hr']
    apply shiftFold_acc_const
    intro p hp
    rcases List.mem_iff_getElem.mp hp with ⟨j, hj, rfl⟩
    have hlen : (offs.drop (r' + 1)).length = offs.length - (r' + 1) := by simp
    have hidx : r' + 1 + j < offs.length := by omega
    rw [List.getElem_drop]
    have := hhigh (r' + 1 + j) (by omega) hidx
    rw [List.getD_eq_getElem _ _ hidx] at this
    omega

/-- `_logical_to_physical` subtracts exactly the shift in effect
(`shiftFold`) when the remap table is well formed. -/
theorem logical_to_physical_shiftFold (s : VBuf) (f : IndexedFileM)
    (hf : s.file = some f) (hsort : OffsSorted s.line_offsets) (q : Int) :
    s.logical_to_physical q = q - shiftFold s.line_offsets q := by
  unfold VBuf.logical_to_physical
  rw [hf]
  by_cases he : s.line_offsets = []
  · simp [he, shiftFold]
  · simp only [he, if_false]
    have hsp := bisectRight_spec (s.line_offsets.map Prod.fst) q hsort
    have hlen : (s.line_offsets.map Prod.fst).length = s.line_offsets.length := by
      simp
    have hb := shiftFold_boundary s.line_offsets q
      (bisectRight (s.line_offsets.map Prod.fst) q) (by omega)
      (fun i hi => by
        have := hsp.2.1 i hi
        rwa [getD_map_fst _ _ (by omega)] at this)
      (fun i h1 h2 => by
        have := hsp.2.2 i h1 (by omega)
        rwa [getD_map_fst _ _ (by omega)] at this)
    by_cases hr : bisectRight (s.line_offsets.map Prod.fst) q = 0
    · rw [if_pos hr, hb, if_pos hr]
      ring
    · rw [if_neg hr, hb, if_neg hr]

theorem shiftFold_eq_bisect (offs : List (Int × Int)) (q : Int)
    (hsort : OffsSorted offs) :
    shiftFold offs q =
      if bisectRight (offs.map Prod.fst) q = 0 then 0
      else (offs.getD (bisectRight (offs.map Prod.fst) q - 1) (0, 0)).2 := by
  have hsp := bisectRight_spec (offs.map Prod.fst) q hsort
  have hlen : (offs.map Prod.fst).length = offs.length := by simp
  exact shiftFold_boundary offs q _ (by omega)
    (fun i hi => by
      have := hsp.2.1 i hi
      rwa [getD_map_fst _ _ (by omega)] at this)
    (fun i h1 h2 => by
      have := hsp.2.2 i h1 (by omega)
      rwa [getD_map_fst _ _ (by omega)] at this)

theorem addOffsetList_ne_nil (offs : List (Int × Int)) (a d : Int) :
    addOffsetList offs a d ≠ [] := by
  unfold addOffsetList
  by_cases he : offs = []
  · simp [he]
  · simp only [he, if_false]
    split
    · simp only [ne_eq, List.mapIdx_eq_nil_iff]
      exact he
    · simp

theorem getLastD_eq_getD (l : List (Int × Int)) (h : l ≠ []) :
    l.getLast?.getD (0, 0) = l.getD (l.length - 1) (0, 0) := by
  have hl : 0 < l.length := List.length_pos.mpr h
  rw [List.getLast?_eq_getElem?, List.getElem?_eq_getElem (by omega),
    List.getD_eq_getElem _ _ (by omega)]
  rfl

theorem bisectLeft_strict (offs : List (Int × Int)) (a : Int)
    (hsort : OffsSorted offs)
    (hcond : ¬ (bisectLeft (offs.map Prod.fst) a < offs.length ∧
      (offs.getD (bisectLeft (offs.map Prod.fst) a) (0, 0)).1 = a)) :
    ∀ i, bisectLeft (offs.map Prod.fst) a ≤ i → i < offs.length →
      a < (offs.getD i (0, 0)).1 := by
  intro i hi1 hi2
  have hsp := bisectLeft_spec (offs.map Prod.fst) a hsort
  have hlen : (offs.map Prod.fst).length = offs.length := by simp
  have hle : a ≤ (offs.getD i (0, 0)).1 := by
    have := hsp.2.2 i hi1 (by omega)
    rwa [getD_map_fst _ _ (by omega)] at this
  rcases lt_or_eq_of_le hle with hlt | heq
  · exact hlt
  · exfalso
    set pos := bisectLeft (offs.map Prod.fst) a with hpos
    rcases Nat.eq_or_lt_of_le hi1 with rfl | hgt
    · exact hcond ⟨hi2, heq.symm⟩
    · have hposlen : pos < offs.length := by omega
      have hp : pos < (offs.map Prod.fst).length := by omega
      have hii : i < (offs.map Prod.fst).length := by omega
      have h1 : (offs.map Prod.fst).getD pos 0 < (offs.map Prod.fst).getD i 0 := by
        rw [List.getD_eq_getElem _ _ hp, List.getD_eq_getElem _ _ hii]
        exact List.pairwise_iff_getElem.mp hsort pos i hp hii hgt
      have h2 : a ≤ (offs.map Prod.fst).getD pos 0 := hsp.2.2 pos (le_refl _) hp
      rw [getD_map_fst _ _ (by omega)] at h1 h2
      rw [getD_map_fst _ _ (by omega)] at h1
      omega

theorem mapIdx_getD (offs : List (Int × Int)) (g : Nat → Int × Int → Int × Int)
    (i : Nat) (h : i < offs.length) :
    (offs.mapIdx g).getD i (0, 0) = g i (offs.getD i (0, 0)) := by
  rw [List.getD_eq_getElem _ _ (by simpa using h), List.getD_eq_getElem _ _ h]
  exact List.getElem_mapIdx

/-- The list built by the insert branch of `_add_offset`, entry by entry. -/
theorem addOffsetInsert_getD (offs : List (Int × Int)) (a d prev : Int)
    (pos : Nat) (hpos : pos ≤ offs.length) (i : Nat)
    (h : i < offs.length + 1) :
    ((offs.take pos ++ (a, prev + d) ::
        (offs.drop pos).map fun p => (p.1, p.2 + d)).getD i (0, 0)) =
      if i < pos then offs.getD i (0, 0)
      else if i = pos then (a, prev + d)
      else ((offs.getD (i - 1) (0, 0)).1, (offs.getD (i - 1) (0, 0)).2 + d) := by
  have hlt : (offs.take pos).length = pos := by
    simp [List.length_take]
    omega
  have hlen : (offs.take pos ++ (a, prev + d) ::
      (offs.drop pos).map fun p => (p.1, p.2 + d)).length = offs.length + 1 := by
    simp only [List.length_append, List.length_cons, List.length_map,
      List.length_drop, hlt]
    omega
  rw [List.getD_eq_getElem _ _ (by omega), List.getElem_append]
  by_cases hip : i < pos
  · rw [dif_pos (by omega)]
    rw [if_pos hip]
    rw [List.getD_eq_getElem _ _ (by omega)]
    exact List.getElem_take _
  · rw [dif_neg (by omega)]
    rw [if_neg hip]
    rw [List.getElem_cons]
    by_cases hie : i = pos
    · rw [dif_pos (by omega)]
      rw [if_pos hie]
    · rw [dif_neg (by omega)]
      rw [if_neg hie]
      have hidx : i - (offs.take pos).length - 1 < ((offs.drop pos).map
          fun p => (p.1, p.2 + d)).length := by
        simp only [List.length_map, List.length_drop, hlt]
        omega
      rw [List.getElem_map]
      have hidx2 : i - (offs.take pos).length - 1 < (offs.drop pos).length := by
        simpa using hidx
      have hi1 : i - 1 < offs.length := by omega
      have heq : (offs.drop pos)[i - (offs.take pos).length - 1] =
          offs[i - 1] := by
        rw [List.getElem_drop]
        congr 1
        omega
      rw [heq]
      rw [List.getD_eq_getElem _ _ (by omega)]

/-- `_add_offset` keeps the remap table sorted. -/
theorem addOffsetList_sorted (offs : List (Int × Int)) (a d : Int)
    (hsort : OffsSorted offs) : OffsSorted (addOffsetList offs a d) := by
  unfold addOffsetList
  by_cases he : offs = []
  · rw [if_pos he]
    simp [OffsSorted]
  · rw [if_neg he]
    have hsort' : List.Pairwise (· < ·) (offs.map Prod.fst) := hsort
    have hsp := bisectLeft_spec (offs.map Prod.fst) a hsort'
    have hlen : (offs.map Prod.fst).length = offs.length := by simp
    set pos := bisectLeft (offs.map Prod.fst) a with hpos
    by_cases hcond : pos < offs.length ∧ (offs.getD pos (0, 0)).1 = a
    · rw [if_pos hcond]
      show List.Pairwise (· < ·) _
      have hkeys : (offs.mapIdx fun i p =>
          if i = pos then (a, p.2 + d)
          else if pos < i then (p.1, p.2 + d) else p).map Prod.fst =
          offs.map Prod.fst := by
        apply List.ext_getElem
        · simp
        · intro i h1 h2
          have hi : i < offs.length := by simpa using h2
          simp only [List.getElem_map, List.getElem_mapIdx]
          by_cases hip : i = pos
          · subst hip
            simp only [if_pos rfl]
            have hc2 := hcond.2
            rw [List.getD_eq_getElem _ _ hcond.1] at hc2
            exact hc2.symm
          · by_cases hpi : pos < i
            · simp only [hip, if_false, hpi, if_true]
            · simp only [hip, if_false, hpi, if_false]
      show OffsSorted _
      unfold OffsSorted
      rw [hkeys]
      exact hsort'
    · rw [if_neg hcond]
      have hposle : pos ≤ offs.length := by
        have := bisectLeft_le (offs.map Prod.fst) a
        omega
      have hstrict := bisectLeft_strict offs a hsort hcond
      show OffsSorted _
      unfold OffsSorted
      have hkeys : (offs.take pos ++ (a,
          (if 0 < pos then (offs.getD (pos - 1) (0, 0)).2 else 0) + d) ::
          (offs.drop pos).map fun p => (p.1, p.2 + d)).map Prod.fst =
          (offs.map Prod.fst).take pos ++ a ::
            (offs.map Prod.fst).drop pos := by
        simp only [List.map_append, List.map_cons, List.map_map,
          List.map_take, List.map_drop]
        congr 2
      rw [hkeys]
      have hgt : ∀ y ∈ (offs.map Prod.fst).drop pos, a < y := by
        intro y hy
        rcases List.mem_iff_getElem.mp hy with ⟨j, hj, rfl⟩
        have hjlen : pos + j < offs.length := by
          simp only [List.length_drop, hlen] at hj
          omega
        have hs := hstrict (pos + j) (by omega) hjlen
        rw [List.getElem_drop]
        have hjm : pos + j < (offs.map Prod.fst).length := by omega
        have hg : (offs.map Prod.fst)[pos + j] =
            (offs.getD (pos + j) (0, 0)).1 := by
          rw [← getD_map_fst _ _ hjlen, List.getD_eq_getElem _ _ (by omega)]
        rw [hg]
        exact hs
      have hlt2 : ∀ x ∈ (offs.map Prod.fst).take pos, x < a := by
        intro x hx
        rcases List.mem_iff_getElem.mp hx with ⟨i, hi, rfl⟩
        have hilen : i < pos := by
          simp only [List.length_take] at hi
          omega
        rw [List.getElem_take]
        have := hsp.2.1 i hilen
        rwa [List.getD_eq_getElem _ _ (by omega)] at this
      have horig : List.Pairwise (· < ·)
          ((offs.map Prod.fst).take pos ++ (offs.map Prod.fst).drop pos) := by
        rw [List.take_append_drop]
        exact hsort'
      rw [List.pairwise_append] at horig
      obtain ⟨ht, hd2, htd⟩ := horig
      rw [List.pairwise_append]
      refine ⟨ht, ?_, ?_⟩
      · rw [List.pairwise_cons]
        exact ⟨hgt, hd2⟩
      · intro x hx y hy
        rcases List.mem_cons.mp hy with rfl | hy2
        · exact hlt2 x hx
        · exact htd x hx y hy2

/-- `_add_offset` adds `delta` to the shift in effect at every line at or
after `at_line`, and leaves the shift before `at_line` unchanged. -/
theorem addOffsetList_shiftFold (offs : List (Int × Int)) (a d q : Int)
    (hsort : OffsSorted offs) :
    shiftFold (addOffsetList offs a d) q =
      shiftFold offs q + (if a ≤ q then d else 0) := by
  unfold addOffsetList
  by_cases he : offs = []
  · rw [if_pos he, he]
    unfold shiftFold
    simp only [List.foldl_nil, List.foldl_cons]
    split <;> simp
  · rw [if_neg he]
    have hsort' : List.Pairwise (· < ·) (offs.map Prod.fst) := hsort
    have hsp := bisectLeft_spec (offs.map Prod.fst) a hsort'
    have hrsp := bisectRight_spec (offs.map Prod.fst) q hsort'
    have hlen : (offs.map Prod.fst).length = offs.length := by simp
    set pos := bisectLeft (offs.map Prod.fst) a with hpos
    set r := bisectRight (offs.map Prod.fst) q with hrq
    have hsf := shiftFold_eq_bisect offs q hsort
    rw [← hrq] at hsf
    by_cases hcond : pos < offs.length ∧ (offs.getD pos (0, 0)).1 = a
    · rw [if_pos hcond]
      have hklen : (offs.mapIdx fun i p =>
          if i = pos then (a, p.2 + d)
          else if pos < i then (p.1, p.2 + d) else p).length = offs.length := by
        simp
      have hRkey : ∀ i, i < offs.length →
          (((offs.mapIdx fun i p =>
            if i = pos then (a, p.2 + d)
            else if pos < i then (p.1, p.2 + d) else p).getD i (0, 0))).1 =
          (offs.getD i (0, 0)).1 := by
        intro i hi
        rw [mapIdx_getD _ _ i hi]
        by_cases hip : i = pos
        · subst hip
          simp only [if_pos rfl]
          exact hcond.2.symm
        · by_cases hpi : pos < i
          · simp only [hip, if_false, hpi, if_true]
          · simp only [hip, if_false, hpi, if_false]
      have hRval : ∀ i, i < offs.length →
          (((offs.mapIdx fun i p =>
            if i = pos then (a, p.2 + d)
            else if pos < i then (p.1, p.2 + d) else p).getD i (0, 0))).2 =
          (offs.getD i (0, 0)).2 + (if pos ≤ i then d else 0) := by
        intro i hi
        rw [mapIdx_getD _ _ i hi]
        by_cases hip : i = pos
        · subst hip
          rw [if_pos rfl, if_pos (le_refl pos)]
        · by_cases hpi : pos < i
          · rw [if_neg hip, if_pos hpi, if_pos (le_of_lt hpi)]
          · have hnle : ¬ pos ≤ i := by omega
            rw [if_neg hip, if_neg hpi, if_neg hnle]
            omega
      have hb := shiftFold_boundary (offs.mapIdx fun i p =>
          if i = pos then (a, p.2 + d)
          else if pos < i then (p.1, p.2 + d) else p) q r
        (by omega)
        (fun i hi => by
          rw [hRkey i (by omega)]
          have := hrsp.2.1 i hi
          rwa [getD_map_fst _ _ (by omega)] at this)
        (fun i h1 h2 => by
          rw [hklen] at h2
          rw [hRkey i h2]
          have := hrsp.2.2 i h1 (by omega)
          rwa [getD_map_fst _ _ (by omega)] at this)
      rw [hb, hsf]
      have hkpa : (offs.getD pos (0, 0)).1 = a := hcond.2
      by_cases hr0 : r = 0
      · have hqa : ¬ a ≤ q := by
          have := hrsp.2.2 pos (by omega) (by omega)
          rw [getD_map_fst _ _ (by omega), hkpa] at this
          omega
        rw [if_pos hr0, if_pos hr0, if_neg hqa]
        omega
      · rw [if_neg hr0, if_neg hr0, hRval (r - 1) (by omega)]
        have hiff : pos ≤ r - 1 ↔ a ≤ q := by
          constructor
          · intro hple
            have h1 := hrsp.2.1 (r - 1) (by omega)
            have h2 : (offs.map Prod.fst).getD pos 0 ≤
                (offs.map Prod.fst).getD (r - 1) 0 :=
              getD_mono_of_pairwise_lt _ hsort' pos (r - 1) hple (by omega)
            rw [getD_map_fst _ _ (by omega), hkpa] at h2
            omega
          · intro haq
            by_contra hple
            have hrpos : r ≤ pos := by omega
            have := hrsp.2.2 pos (by omega) (by omega)
            rw [getD_map_fst _ _ (by omega), hkpa] at this
            omega
        by_cases haq : a ≤ q
        · rw [if_pos haq, if_pos (hiff.mpr haq)]
        · rw [if_neg haq, if_neg (fun h => haq (hiff.mp h))]
    · rw [if_neg hcond]
      have hposle : pos ≤ offs.length := by
        have := bisectLeft_le (offs.map Prod.fst) a
        omega
      have hstrict := bisectLeft_strict offs a hsort hcond
      have hins := addOffsetInsert_getD offs a d
        (if 0 < pos then (offs.getD (pos - 1) (0, 0)).2 else 0) pos hposle
      have hinslen : (offs.take pos ++ (a,
          (if 0 < pos then (offs.getD (pos - 1) (0, 0)).2 else 0) + d) ::
          (offs.drop pos).map fun p => (p.1, p.2 + d)).length =
          offs.length + 1 := by
        simp only [List.length_append, List.length_cons, List.length_map,
          List.length_drop, List.length_take]
        omega
      set R := offs.take pos ++ (a,
        (if 0 < pos then (offs.getD (pos - 1) (0, 0)).2 else 0) + d) ::
        (offs.drop pos).map (fun p => (p.1, p.2 + d)) with hR
      by_cases haq : a ≤ q
      · -- boundary of the new list is r + 1
        have hrpos : pos ≤ r := by
          by_contra hc
          have hrlt : r < pos := by omega
          have h1 := hsp.2.1 r (by omega)
          have h2 := hrsp.2.2 r (le_refl _) (by omega)
          omega
        have hb := shiftFold_boundary R q (r + 1)
          (by omega)
          (fun i hi => by
            rw [hins i (by omega)]
            by_cases hip : i < pos
            · rw [if_pos hip]
              have := hsp.2.1 i (by omega)
              rw [getD_map_fst _ _ (by omega)] at this
              omega
            · by_cases hie : i = pos
              · rw [if_neg hip, if_pos hie]
                exact haq
              · rw [if_neg hip, if_neg hie]
                have h1 := hrsp.2.1 (i - 1) (by omega)
                rw [getD_map_fst _ _ (by omega)] at h1
                exact h1)
          (fun i h1 h2 => by
            rw [hinslen] at h2
            rw [hins i (by omega)]
            have hipos : pos < i := by omega
            rw [if_neg (by omega), if_neg (by omega)]
            have := hrsp.2.2 (i - 1) (by omega) (by omega)
            rwa [getD_map_fst _ _ (by omega)] at this)
        rw [hb, hsf, if_pos haq]
        simp only [Nat.succ_ne_zero, if_false, Nat.add_sub_cancel]
        rw [hins r (by omega)]
        by_cases hre : r = pos
        · rw [if_neg (by omega), if_pos hre]
          by_cases hr0 : r = 0
          · rw [if_pos hr0]
            have : ¬ 0 < pos := by omega
            rw [if_neg this]
          · rw [if_neg hr0]
            have : 0 < pos := by omega
            rw [if_pos this, hre]
        · have hrgt : pos < r := by omega
          rw [if_neg (by omega), if_neg hre, if_neg (by omega)]
      · -- boundary of the new list is r itself
        have hrpos : r ≤ pos := by
          by_contra hc
          have hplt : pos < r := by omega
          have h1 := hrsp.2.1 pos (by omega)
          have h2 := hsp.2.2 pos (le_refl _) (by omega)
          omega
        have hb := shiftFold_boundary R q r
          (by omega)
          (fun i hi => by
            rw [hins i (by omega), if_pos (by omega)]
            have := hrsp.2.1 i hi
            rwa [getD_map_fst _ _ (by omega)] at this)
          (fun i h1 h2 => by
            rw [hinslen] at h2
            rw [hins i (by omega)]
            by_cases hip : i < pos
            · rw [if_pos hip]
              have := hrsp.2.2 i h1 (by omega)
              rwa [getD_map_fst _ _ (by omega)] at this
            · by_cases hie : i = pos
              · rw [if_neg hip, if_pos hie]
                omega
              · rw [if_neg hip, if_neg hie]
                have hig : pos ≤ i - 1 := by omega
                have := hstrict (i - 1) hig (by omega)
                omega)
        rw [hb, hsf, if_neg haq]
        by_cases hr0 : r = 0
        · rw [if_pos hr0, if_pos hr0]
          omega
        · rw [if_neg hr0, if_neg hr0]
          rw [hins (r - 1) (by omega), if_pos (by omega)]
          omega

/-- `_add_offset` adds `delta` to the final cumulative entry (0 when the
table was empty) — the quantity `total` consults. -/
theorem addOffsetList_lastVal (offs : List (Int × Int)) (a d : Int) :
    ((addOffsetList offs a d).getLast?.getD (0, 0)).2 =
      (if offs = [] then 0 else (offs.getLast?.getD (0, 0)).2) + d := by
  unfold addOffsetList
  by_cases he : offs = []
  · rw [if_pos he, if_pos he]
    simp
  · rw [if_neg he, if_neg he]
    have hlen0 : 0 < offs.length := List.length_pos.mpr he
    have hposle : bisectLeft (offs.map Prod.fst) a ≤ offs.length := by
      have := bisectLeft_le (offs.map Prod.fst) a
      simpa using this
    set pos := bisectLeft (offs.map Prod.fst) a with hpos
    by_cases hcond : pos < offs.length ∧ (offs.getD pos (0, 0)).1 = a
    · rw [if_pos hcond]
      have hRne : (offs.mapIdx fun i p =>
          if i = pos then (a, p.2 + d)
          else if pos < i then (p.1, p.2 + d) else p) ≠ [] := by
        simp only [ne_eq, List.mapIdx_eq_nil_iff]
        exact he
      rw [getLastD_eq_getD _ hRne, getLastD_eq_getD _ he]
      have hRlen : (offs.mapIdx fun i p =>
          if i = pos then (a, p.2 + d)
          else if pos < i then (p.1, p.2 + d) else p).length = offs.length := by
        simp
      rw [hRlen, mapIdx_getD _ _ _ (by omega)]
      by_cases hip : offs.length - 1 = pos
      · rw [hip, if_pos rfl]
      · have hplt : pos < offs.length - 1 := by omega
        rw [if_neg hip, if_pos hplt]
    · rw [if_neg hcond]
      have hins := addOffsetInsert_getD offs a d
        (if 0 < pos then (offs.getD (pos - 1) (0, 0)).2 else 0) pos hposle
      have hinslen : (offs.take pos ++ (a,
          (if 0 < pos then (offs.getD (pos - 1) (0, 0)).2 else 0) + d) ::
          (offs.drop pos).map fun p => (p.1, p.2 + d)).length =
          offs.length + 1 := by
        simp only [List.length_append, List.length_cons, List.length_map,
          List.length_drop, List.length_take]
        omega
      have hRne : (offs.take pos ++ (a,
          (if 0 < pos then (offs.getD (pos - 1) (0, 0)).2 else 0) + d) ::
          (offs.drop pos).map fun p => (p.1, p.2 + d)) ≠ [] := by
        simp
      rw [getLastD_eq_getD _ hRne, getLastD_eq_getD _ he, hinslen]
      simp only [Nat.add_sub_cancel]
      rw [hins offs.length (by omega)]
      by_cases hpl : pos = offs.length
      · rw [if_neg (by omega), if_pos hpl.symm]
        have h0 : 0 < pos := by omega
        rw [if_pos h0, hpl]
      · rw [if_neg (by omega), if_neg (by omega)]

/-- Lookup after the upward renumbering of a dict in the multi-segment
branch of `insert_text`. -/
theorem dget_shiftUp {α : Type} (d : List (Int × α)) (ln L : Int)
    (hL : 1 ≤ L) (j : Int) :
    dget (d.filterMap fun p =>
      if p.1 < ln then some p
      else if p.1 = ln then none
      else some (p.1 + L, p.2)) j =
    if j < ln then dget d j
    else if j ≤ ln + L then none
    else dget d (j - L) := by
  induction d with
  | nil =>
    simp [dget, List.filterMap_nil]
  | cons p rest ih =>
    obtain ⟨k, v⟩ := p
    by_cases hk1 : k < ln
    · rw [List.filterMap_cons_some (b := (k, v)) (by simp [hk1])]
      simp only [dget, ih]
      by_cases hkj : k = j
      · subst hkj
        rw [if_pos rfl, if_pos hk1, if_pos rfl]
      · rw [if_neg hkj]
        by_cases hj1 : j < ln
        · rw [if_pos hj1, if_pos hj1, if_neg hkj]
        · rw [if_neg hj1, if_neg hj1]
          by_cases hj2 : j ≤ ln + L
          · rw [if_pos hj2, if_pos hj2]
          · rw [if_neg hj2, if_neg hj2, if_neg (by omega)]
    · by_cases hk2 : k = ln
      · rw [List.filterMap_cons_none (by simp [hk1, hk2])]
        rw [ih]
        by_cases hj1 : j < ln
        · rw [if_pos hj1, if_pos hj1]
          simp only [dget]
          rw [if_neg (by omega)]
        · rw [if_neg hj1, if_neg hj1]
          by_cases hj2 : j ≤ ln + L
          · rw [if_pos hj2, if_pos hj2]
          · rw [if_neg hj2, if_neg hj2]
            simp only [dget]
            rw [if_neg (by omega)]
      · rw [List.filterMap_cons_some (b := (k + L, v)) (by simp [hk1, hk2])]
        simp only [dget, ih]
        by_cases hj1 : j < ln
        · rw [if_pos hj1, if_pos hj1, if_neg (by omega), if_neg (by omega)]
        · rw [if_neg hj1, if_neg hj1]
          by_cases hj2 : j ≤ ln + L
          · rw [if_pos hj2, if_pos hj2, if_neg (by omega)]
          · rw [if_neg hj2, if_neg hj2]
            by_cases hkj : k + L = j
            · rw [if_pos hkj, if_pos (by omega)]
            · rw [if_neg hkj, if_neg (by omega)]

/-- Lookup after the downward renumbering of a dict in the multi-line
branch of `delete_selection`. -/
theorem dget_shiftDown {α : Type} (d : List (Int × α)) (sl el : Int)
    (hlt : sl < el) (j : Int) :
    dget (d.filterMap fun p =>
      if p.1 < sl then some p
      else if p.1 = sl then none
      else if p.1 ≤ el then none
      else some (p.1 - (el - sl), p.2)) j =
    if j < sl then dget d j
    else if j = sl then none
    else dget d (j + (el - sl)) := by
  induction d with
  | nil =>
    simp [dget, List.filterMap_nil]
  | cons p rest ih =>
    obtain ⟨k, v⟩ := p
    by_cases hk1 : k < sl
    · rw [List.filterMap_cons_some (b := (k, v)) (by simp [hk1])]
      simp only [dget, ih]
      by_cases hkj : k = j
      · subst hkj
        rw [if_pos rfl, if_pos hk1, if_pos rfl]
      · rw [if_neg hkj]
        by_cases hj1 : j < sl
        · rw [if_pos hj1, if_pos hj1, if_neg hkj]
        · rw [if_neg hj1, if_neg hj1]
          by_cases hj2 : j = sl
          · rw [if_pos hj2, if_pos hj2]
          · rw [if_neg hj2, if_neg hj2, if_neg (by omega)]
    · by_cases hk2 : k ≤ el
      · rw [List.filterMap_cons_none (by
          by_cases hke : k = sl <;> simp [hk1, hke, hk2])]
        rw [ih]
        by_cases hj1 : j < sl
        · rw [if_pos hj1, if_pos hj1]
          simp only [dget]
          rw [if_neg (by omega)]
        · rw [if_neg hj1, if_neg hj1]
          by_cases hj2 : j = sl
          · rw [if_pos hj2, if_pos hj2]
          · rw [if_neg hj2, if_neg hj2]
            simp only [dget]
            rw [if_neg (by omega)]
      · rw [List.filterMap_cons_some (b := (k - (el - sl), v)) (by
          simp only [if_neg hk1, if_neg (by omega : ¬ k = sl),
            if_neg hk2])]
        simp only [dget, ih]
        by_cases hj1 : j < sl
        · rw [if_pos hj1, if_pos hj1, if_neg (by omega), if_neg (by omega)]
        · rw [if_neg hj1, if_neg hj1]
          by_cases hj2 : j = sl
          · rw [if_pos hj2, if_pos hj2, if_neg (by omega)]
          · rw [if_neg hj2, if_neg hj2]
            by_cases hkj : k - (el - sl) = j
            · rw [if_pos hkj, if_pos (by omega)]
            · rw [if_neg hkj, if_neg (by omega)]

/-- Membership after the upward renumbering of the tombstone set in the
multi-segment branch of `insert_text`. -/
theorem mem_shiftUpSet (dl : List Int) (ln L : Int) (hL : 1 ≤ L) (j : Int) :
    (j ∈ dl.map fun k => if k < ln then k else k + L) ↔
    (if j < ln then j ∈ dl
     else if j < ln + L then False
     else (j - L) ∈ dl) := by
  simp only [List.mem_map]
  constructor
  · rintro ⟨k, hk, rfl⟩
    by_cases hk1 : k < ln
    · rw [if_pos hk1, if_pos hk1]
      exact hk
    · rw [if_neg hk1, if_neg (by omega), if_neg (by omega)]
      have : k + L - L = k := by ring
      rw [this]
      exact hk
  · intro h
    by_cases hj1 : j < ln
    · rw [if_pos hj1] at h
      exact ⟨j, h, by rw [if_pos hj1]⟩
    · by_cases hj2 : j < ln + L
      · rw [if_neg hj1, if_pos hj2] at h
        exact h.elim
      · rw [if_neg hj1, if_neg hj2] at h
        refine ⟨j - L, h, ?_⟩
        rw [if_neg (by omega)]
        ring

/-- Membership after the downward renumbering of the tombstone set in the
multi-line branch of `delete_selection`. -/
theorem mem_shiftDownSet (dl : List Int) (sl el : Int) (hlt : sl < el)
    (j : Int) :
    (j ∈ dl.filterMap fun k =>
      if k < sl then some k
      else if k ≤ el then none
      else some (k - (el - sl))) ↔
    (if j < sl then j ∈ dl
     else if j ≤ sl then False
     else (j + (el - sl)) ∈ dl) := by
  simp only [List.mem_filterMap]
  constructor
  · rintro ⟨k, hk, hfk⟩
    by_cases h1 : k < sl
    · rw [if_pos h1] at hfk
      obtain rfl := Option.some.inj hfk
      rw [if_pos h1]
      exact hk
    · by_cases h2 : k ≤ el
      · rw [if_neg h1, if_pos h2] at hfk
        exact absurd hfk (by simp)
      · rw [if_neg h1, if_neg h2] at hfk
        obtain rfl := Option.some.inj hfk
        rw [if_neg (by omega), if_neg (by omega)]
        have : k - (el - sl) + (el - sl) = k := by ring
        rw [this]
        exact hk
  · intro h
    by_cases hj1 : j < sl
    · rw [if_pos hj1] at h
      exact ⟨j, h, by rw [if_pos hj1]⟩
    · by_cases hj2 : j ≤ sl
      · rw [if_neg hj1, if_pos hj2] at h
        exact h.elim
      · rw [if_neg hj1, if_neg hj2] at h
        refine ⟨j + (el - sl), h, ?_⟩
        rw [if_neg (by omega), if_neg (by omega)]
        congr 1
        omega

theorem contains_eq_of_mem_iff (l1 l2 : List Int) (j : Int)
    (h : j ∈ l1 ↔ j ∈ l2) : l1.contains j = l2.contains j := by
  by_cases h1 : j ∈ l1
  · simp [h1, h.mp h1]
  · have h2 : j ∉ l2 := fun h2 => h1 (h.mpr h2)
    simp [h1, h2]

/-- Writing the interior segments of a multi-segment insert does not touch
keys outside `(ln, ln + len(middle)]`. -/
theorem dget_foldl_dset_outside {α : Type} (l : List (Nat × α))
    (d0 : List (Int × α)) (ln : Int) (j : Int)
    (hj : ∀ p ∈ l, j ≠ ln + 1 + (p.1 : Int)) :
    dget (l.foldl (fun d p => dset d (ln + 1 + (p.1 : Int)) p.2) d0) j =
      dget d0 j := by
  induction l generalizing d0 with
  | nil => rfl
  | cons q rest ih =>
    simp only [List.foldl_cons]
    rw [ih _ (fun p hp => hj p (List.mem_cons_of_mem _ hp))]
    rw [dget_dset]
    exact if_neg (fun h => hj q (List.mem_cons_self _ _) h.symm)

/-- `get_line` only depends on the pointwise content of the overlay maps,
the file, and the logical→physical remapping at the queried line. -/
theorem get_line_congr_phys (s1 s2 : VBuf) (m : Int)
    (hins : dget s1.inserted_lines m = dget s2.inserted_lines m)
    (hed : dget s1.edits m = dget s2.edits m)
    (hdel : s1.deleted_lines.contains m = s2.deleted_lines.contains m)
    (hfile : s1.file = s2.file)
    (hphys : s1.logical_to_physical m = s2.logical_to_physical m) :
    s1.get_line m = s2.get_line m := by
  unfold VBuf.get_line
  rw [hins, hed, hdel, hfile, hphys]

theorem pySliceTo_append_pySliceFrom (s : PyStr) (c : Int) :
    pySliceTo s c ++ pySliceFrom s c = s :=
  List.take_append_drop _ _

theorem length_pySliceTo (s : PyStr) (c : Int) (h0 : 0 ≤ c)
    (hc : c ≤ (s.length : Int)) : (pySliceTo s c).length = c.toNat := by
  unfold pySliceTo pyIdx
  rw [if_neg (by omega)]
  simp only [List.length_take]
  omega

theorem pySliceTo_append_exact (a r : PyStr) (c : Int) (h0 : 0 ≤ c)
    (hlen : c.toNat = a.length) : pySliceTo (a ++ r) c = a := by
  unfold pySliceTo pyIdx
  rw [if_neg (by omega)]
  have : min c.toNat (a ++ r).length = a.length := by
    simp only [List.length_append]
    omega
  rw [this, List.take_left]

theorem pySliceFrom_append_exact (a r : PyStr) (c : Int) (h0 : 0 ≤ c)
    (hlen : c.toNat = a.length) : pySliceFrom (a ++ r) c = r := by
  unfold pySliceFrom pyIdx
  rw [if_neg (by omega)]
  have : min c.toNat (a ++ r).length = a.length := by
    simp only [List.length_append]
    omega
  rw [this, List.drop_left]

theorem dset_dset {α : Type} (d : List (Int × α)) (k : Int) (v w : α) :
    dset (dset d k v) k w = dset d k w := by
  induction d with
  | nil => simp [dset]
  | cons p rest ih =>
    obtain ⟨k', v'⟩ := p
    by_cases h : k' = k
    · subst h
      simp [dset]
    · simp [dset, h, ih]

theorem dget_none_of_dmem_false {α : Type} (d : List (Int × α)) (k : Int)
    (h : dmem d k = false) : dget d k = none := by
  unfold dmem at h
  exact Option.not_isSome_iff_eq_none.mp (by simp [h])

theorem dget_some_of_dmem {α : Type} (d : List (Int × α)) (k : Int)
    (h : dmem d k = true) : ∃ v, dget d k = some v := by
  unfold dmem at h
  exact Option.isSome_iff_exists.mp h

theorem mem_map_fst_iff {α : Type} (d : List (Int × α)) (k : Int) :
    k ∈ d.map Prod.fst ↔ dget d k ≠ none := by
  rw [← dget_map_fst]
  unfold dmem
  rw [Option.isSome_iff_ne_none]

theorem enum_fst_lt {α : Type} (l : List α) (p : Nat × α)
    (hp : p ∈ l.enum) : p.1 < l.length := by
  rw [List.enum_eq_zip_range] at hp
  have := (List.of_mem_zip hp).1
  exact List.mem_range.mp this

/-- `get_line` when the queried key is in the inserted-lines overlay. -/
theorem get_line_of_dget_ins (s : VBuf) (n : Int) (v : PyStr)
    (h : dget s.inserted_lines n = some v) : s.get_line n = v := by
  unfold VBuf.get_line
  rw [h]

/-- `get_line` when the queried key is absent from the inserted overlay but
present in the edits overlay. -/
theorem get_line_of_dget_ed (s : VBuf) (n : Int) (v : PyStr)
    (hi : dget s.inserted_lines n = none)
    (h : dget s.edits n = some v) : s.get_line n = v := by
  unfold VBuf.get_line
  rw [hi, h]

theorem splitOn_length_pos (t : PyStr) : 0 < (t.splitOn '\n').length := by
  have h : t.splitOn '\n' ≠ [] := by
    unfold List.splitOn
    exact List.splitOnP_ne_nil _ t
  exact List.length_pos.mpr h

/-- `insert_text` with no active selection and a newline-free split (one
segment): the current line is spliced in place and the cursor column
advances. -/
theorem insert_text_single_eq (s : VBuf) (t : PyStr)
    (hsel : s.selection.has_selection = false)
    (hone : (t.splitOn '\n').length = 1) :
    s.insert_text t =
      if dmem s.inserted_lines s.cursor_line then
        { s with
            inserted_lines := dset s.inserted_lines s.cursor_line
              (pySliceTo (s.get_line s.cursor_line) s.cursor_col ++ t ++
                pySliceFrom (s.get_line s.cursor_line) s.cursor_col)
            cursor_col := s.cursor_col + (t.length : Int) }
      else
        { s with
            edits := dset s.edits s.cursor_line
              (pySliceTo (s.get_line s.cursor_line) s.cursor_col ++ t ++
                pySliceFrom (s.get_line s.cursor_line) s.cursor_col)
            cursor_col := s.cursor_col + (t.length : Int) } := by
  unfold VBuf.insert_text
  simp only [hsel, Bool.false_eq_true, if_false]
  rw [if_pos hone]
  split <;> rfl

/-- `insert_text` with no active selection and a multi-segment split: the
current line is replaced by the left part, the interior and right segments
enter the inserted overlay, later keys are renumbered upward, and the remap
table gains an offset at the next line. -/
theorem insert_text_multi_eq (s : VBuf) (t : PyStr)
    (hsel : s.selection.has_selection = false)
    (hmulti : ¬ (t.splitOn '\n').length = 1) :
    s.insert_text t =
      { file := s.file
        edits :=
          if dmem s.inserted_lines s.cursor_line then
            s.edits.filterMap fun p =>
              if p.1 < s.cursor_line then some p
              else if p.1 = s.cursor_line then none
              else some (p.1 + (((t.splitOn '\n').length : Int) - 1), p.2)
          else
            dset (s.edits.filterMap fun p =>
              if p.1 < s.cursor_line then some p
              else if p.1 = s.cursor_line then none
              else some (p.1 + (((t.splitOn '\n').length : Int) - 1), p.2))
              s.cursor_line
              (pySliceTo (s.get_line s.cursor_line) s.cursor_col ++
                (t.splitOn '\n').headD [])
        deleted_lines := s.deleted_lines.map fun k =>
          if k < s.cursor_line then k
          else k + (((t.splitOn '\n').length : Int) - 1)
        inserted_lines :=
          dset
            (((((t.splitOn '\n').drop 1).dropLast).enum).foldl
              (fun d p => dset d (s.cursor_line + 1 + (p.1 : Int)) p.2)
              (if dmem s.inserted_lines s.cursor_line then
                dset (s.inserted_lines.filterMap fun p =>
                  if p.1 < s.cursor_line then some p
                  else if p.1 = s.cursor_line then none
                  else some (p.1 + (((t.splitOn '\n').length : Int) - 1), p.2))
                  s.cursor_line
                  (pySliceTo (s.get_line s.cursor_line) s.cursor_col ++
                    (t.splitOn '\n').headD [])
              else
                s.inserted_lines.filterMap fun p =>
                  if p.1 < s.cursor_line then some p
                  else if p.1 = s.cursor_line then none
                  else some (p.1 + (((t.splitOn '\n').length : Int) - 1), p.2)))
            (s.cursor_line + (((t.splitOn '\n').length : Int) - 1))
            ((t.splitOn '\n').getLastD [] ++
              pySliceFrom (s.get_line s.cursor_line) s.cursor_col)
        line_offsets := addOffsetList s.line_offsets (s.cursor_line + 1)
          (((t.splitOn '\n').length : Int) - 1)
        cursor_line := s.cursor_line + (((t.splitOn '\n').length : Int) - 1)
        cursor_col :=
          ((((t.splitOn '\n').getLastD [] ++
            pySliceFrom (s.get_line s.cursor_line) s.cursor_col).length : Int) -
            ((pySliceFrom (s.get_line s.cursor_line) s.cursor_col).length : Int))
        selection := s.selection } := by
  unfold VBuf.insert_text
  simp only [hsel, Bool.false_eq_true, if_false]
  rw [if_neg hmulti]
  by_cases hm : dmem s.inserted_lines s.cursor_line = true
  · simp only [if_pos hm]
    rfl
  · simp only [if_neg hm]
    rfl

/-- `delete_selection` on a single-line selection: the bounded span is cut
out of the current line and written back to whichever overlay owns it. -/
theorem delete_selection_single_eq (u : VBuf) (sl sc ec : Int)
    (hsel : u.selection.has_selection = true)
    (hb : u.selection.get_bounds = some (sl, sc, sl, ec)) :
    u.delete_selection =
      ({ file := u.file
         edits :=
           if dmem u.inserted_lines sl then u.edits
           else dset u.edits sl
             (pySliceTo (u.get_line sl) sc ++ pySliceFrom (u.get_line sl) ec)
         deleted_lines := u.deleted_lines
         inserted_lines :=
           if dmem u.inserted_lines sl then
             dset u.inserted_lines sl
               (pySliceTo (u.get_line sl) sc ++ pySliceFrom (u.get_line sl) ec)
           else u.inserted_lines
         line_offsets := u.line_offsets
         cursor_line := sl
         cursor_col := sc
         selection := SelectionM.init }, true) := by
  unfold VBuf.delete_selection
  rw [hsel]
  rw [if_neg (by simp)]
  rw [hb]
  split
  next heq => exact absurd heq (by simp)
  next a b c d heq =>
    simp only [Option.some.injEq, Prod.mk.injEq] at heq
    obtain ⟨rfl, rfl, rfl, rfl⟩ := heq
    rw [if_pos rfl]
    by_cases hm : dmem u.inserted_lines sl = true
    · simp only [if_pos hm]
    · simp only [if_neg hm]

/-- `delete_selection` on a multi-line selection: the first and last lines
are joined, interior keys vanish, later keys are renumbered downward, and
the remap table gains a negative offset after the start line. -/
theorem delete_selection_multi_eq (u : VBuf) (sl sc el ec : Int)
    (hsel : u.selection.has_selection = true)
    (hb : u.selection.get_bounds = some (sl, sc, el, ec))
    (hne : ¬ sl = el) :
    u.delete_selection =
      ({ file := u.file
         edits :=
           if dmem u.inserted_lines sl then
             u.edits.filterMap fun p =>
               if p.1 < sl then some p
               else if p.1 = sl then none
               else if p.1 ≤ el then none
               else some (p.1 - (el - sl), p.2)
           else
             dset (u.edits.filterMap fun p =>
               if p.1 < sl then some p
               else if p.1 = sl then none
               else if p.1 ≤ el then none
               else some (p.1 - (el - sl), p.2)) sl
               (pySliceTo (u.get_line sl) sc ++ pySliceFrom (u.get_line el) ec)
         deleted_lines := u.deleted_lines.filterMap fun k =>
           if k < sl then some k
           else if k ≤ el then none
           else some (k - (el - sl))
         inserted_lines :=
           if dmem u.inserted_lines sl then
             dset (u.inserted_lines.filterMap fun p =>
               if p.1 < sl then some p
               else if p.1 = sl then none
               else if p.1 ≤ el then none
               else some (p.1 - (el - sl), p.2)) sl
               (pySliceTo (u.get_line sl) sc ++ pySliceFrom (u.get_line el) ec)
           else
             u.inserted_lines.filterMap fun p =>
               if p.1 < sl then some p
               else if p.1 = sl then none
               else if p.1 ≤ el then none
               else some (p.1 - (el - sl), p.2)
         line_offsets := addOffsetList u.line_offsets (sl + 1) (-(el - sl))
         cursor_line := sl
         cursor_col := sc
         selection := SelectionM.init }, true) := by
  unfold VBuf.delete_selection
  rw [hsel]
  rw [if_neg (by simp)]
  rw [hb]
  split
  next heq => exact absurd heq (by simp)
  next a b c d heq =>
    simp only [Option.some.injEq, Prod.mk.injEq] at heq
    obtain ⟨rfl, rfl, rfl, rfl⟩ := heq
    rw [if_neg hne]
    by_cases hm : dmem u.inserted_lines sl = true
    · simp only [if_pos hm]
      rfl
    · simp only [if_neg hm]
      rfl

/-- Two buffer states that agree pointwise on the overlays away from `ln`,
agree at `ln` as `get_line` values, and agree on the remapping, have the
same `get_line` everywhere. -/
theorem get_line_pointwise (u s : VBuf) (ln : Int)
    (hfile : u.file = s.file)
    (hins : ∀ j, ¬ j = ln → dget u.inserted_lines j = dget s.inserted_lines j)
    (hed : ∀ j, ¬ j = ln → dget u.edits j = dget s.edits j)
    (hdel : ∀ j, ¬ j = ln →
      u.deleted_lines.contains j = s.deleted_lines.contains j)
    (hphys : ∀ j, u.logical_to_physical j = s.logical_to_physical j)
    (hval : u.get_line ln = s.get_line ln) :
    ∀ n, u.get_line n = s.get_line n := by
  intro n
  by_cases hn : n = ln
  · subst hn
    exact hval
  · exact get_line_congr_phys u s n (hins n hn) (hed n hn) (hdel n hn)
      hfile (hphys n)

/-- In the fileless branch, `total` is unchanged by a transformation that
preserves overlay keys away from `ln` and keeps `ln` (which lies below the
old `total`) present. -/
theorem total_none_of_pointwise (u s : VBuf) (ln : Int)
    (hfu : u.file = none) (hfs : s.file = none)
    (hlt : ln < s.total)
    (hed : ∀ j, ¬ j = ln → dget u.edits j = dget s.edits j)
    (hins : ∀ j, ¬ j = ln → dget u.inserted_lines j = dget s.inserted_lines j)
    (hkey : ¬ (dget u.edits ln = none ∧ dget u.inserted_lines ln = none)) :
    u.total = s.total := by
  rw [total_none u hfu, total_none s hfs]
  rw [total_none s hfs] at hlt
  set Ku := u.edits.map Prod.fst ++ u.inserted_lines.map Prod.fst with hKu
  set Ks := s.edits.map Prod.fst ++ s.inserted_lines.map Prod.fst with hKs
  have hmemu : ∀ x, x ∈ Ku ↔
      (dget u.edits x ≠ none ∨ dget u.inserted_lines x ≠ none) := by
    intro x
    rw [hKu, List.mem_append, mem_map_fst_iff, mem_map_fst_iff]
  have hmems : ∀ x, x ∈ Ks ↔
      (dget s.edits x ≠ none ∨ dget s.inserted_lines x ≠ none) := by
    intro x
    rw [hKs, List.mem_append, mem_map_fst_iff, mem_map_fst_iff]
  have hlnKu : ln ∈ Ku := (hmemu ln).mpr (not_and_or.mp hkey)
  have hiff : ∀ x, x ∈ Ku ↔ (x ∈ Ks ∨ x = ln) := by
    intro x
    by_cases hx : x = ln
    · subst hx
      exact ⟨fun _ => Or.inr rfl, fun _ => hlnKu⟩
    · rw [hmemu, hmems, hed x hx, hins x hx]
      constructor
      · exact fun h => Or.inl h
      · rintro (h | h)
        · exact h
        · exact absurd h hx
  have hKune : Ku ≠ [] := fun h => by simp [h] at hlnKu
  have hu1 : ¬ (u.edits = [] ∧ u.inserted_lines = []) := by
    rintro ⟨h1, h2⟩
    apply hKune
    rw [hKu, h1, h2]
    rfl
  rw [if_neg hu1, if_neg hKune]
  by_cases hKse : Ks = []
  · have hs1 : (if s.edits = [] ∧ s.inserted_lines = [] then (1 : Int)
        else if Ks = [] then 1
        else max 1 (pyMax Ks + 1)) = 1 := by
      by_cases hc : s.edits = [] ∧ s.inserted_lines = []
      · rw [if_pos hc]
      · rw [if_neg hc, if_pos hKse]
    rw [hs1]
    rw [hs1] at hlt
    have hmax : pyMax Ku = ln := by
      rcases (hiff _).mp (pyMax_mem Ku hKune) with h | h
      · rw [hKse] at h
        exact absurd h (List.not_mem_nil _)
      · exact h
    rw [hmax]
    omega
  · have hs1 : ¬ (s.edits = [] ∧ s.inserted_lines = []) := by
      rintro ⟨h1, h2⟩
      apply hKse
      rw [hKs, h1, h2]
      rfl
    rw [if_neg hs1, if_neg hKse]
    rw [if_neg hs1, if_neg hKse] at hlt
    have h1 : pyMax Ks ≤ pyMax Ku :=
      le_pyMax Ku _ ((hiff _).mpr (Or.inl (pyMax_mem Ks hKse)))
    have h2 : ln ≤ pyMax Ku := le_pyMax Ku ln hlnKu
    have h3 : pyMax Ku ≤ max (pyMax Ks) ln := by
      rcases (hiff _).mp (pyMax_mem Ku hKune) with h | h
      · exact le_trans (le_pyMax Ks _ h) (le_max_left _ _)
      · rw [h]
        exact le_max_right _ _
    omega

/-- `delete_selection` does nothing without an active selection. -/
theorem delete_selection_noop (u : VBuf)
    (h : u.selection.has_selection = false) : u.delete_selection = (u, false) := by
  unfold VBuf.delete_selection
  rw [h]
  rw [if_pos rfl]

/-- `has_selection` of the selection produced by `set_start` followed by
`set_end`. -/
theorem has_selection_span (a b c d : Int) (k : Bool) :
    SelectionM.has_selection
      { start_line := a, start_col := b, end_line := c, end_col := d
        active := decide (a ≠ c ∨ b ≠ d), selecting_with_keyboard := k } =
      decide (a ≠ c ∨ b ≠ d) := by
  unfold SelectionM.has_selection
  by_cases h : a ≠ c ∨ b ≠ d
  · rcases h with h | h <;> simp [h]
  · push_neg at h
    obtain ⟨h1, h2⟩ := h
    subst h1
    subst h2
    simp

/-- `get_bounds` for an in-order single-line selection. -/
theorem get_bounds_same_line (sel : SelectionM)
    (hact : sel.has_selection = true)
    (heq : sel.start_line = sel.end_line)
    (hle : sel.start_col ≤ sel.end_col) :
    sel.get_bounds =
      some (sel.start_line, sel.start_col, sel.end_line, sel.end_col) := by
  unfold SelectionM.get_bounds
  rw [hact]
  rw [if_neg (by simp)]
  rw [if_neg (by omega), if_neg (by omega), if_pos hle]

/-- `get_bounds` for an in-order multi-line selection. -/
theorem get_bounds_lt (sel : SelectionM)
    (hact : sel.has_selection = true)
    (hlt : sel.start_line < sel.end_line) :
    sel.get_bounds =
      some (sel.start_line, sel.start_col, sel.end_line, sel.end_col) := by
  unfold SelectionM.get_bounds
  rw [hact]
  rw [if_neg (by simp)]
  rw [if_pos hlt]

/-- Cutting back out exactly the span just spliced in restores the line. -/
theorem splice_cut (old t : PyStr) (col : Int) (h0 : 0 ≤ col)
    (hc : col ≤ (old.length : Int)) :
    pySliceTo (pySliceTo old col ++ t ++ pySliceFrom old col) col ++
      pySliceFrom (pySliceTo old col ++ t ++ pySliceFrom old col)
        (col + (t.length : Int)) = old := by
  have ha : (pySliceTo old col).length = col.toNat := length_pySliceTo _ _ h0 hc
  have e1 : pySliceTo (pySliceTo old col ++ t ++ pySliceFrom old col) col
      = pySliceTo old col := by
    rw [List.append_assoc]
    exact pySliceTo_append_exact _ _ _ h0 ha.symm
  have e2 : pySliceFrom (pySliceTo old col ++ t ++ pySliceFrom old col)
      (col + (t.length : Int)) = pySliceFrom old col := by
    apply pySliceFrom_append_exact _ _ _ (by omega)
    rw [List.length_append, ha]
    omega
  rw [e1, e2, pySliceTo_append_pySliceFrom]

/-- A state equal to `s` except that the inserted overlay rewrites key `ln`
with the value `get_line` already reports there is observationally `s`. -/
theorem obs_of_ins_dset (u s : VBuf) (ln : Int)
    (hfile : u.file = s.file)
    (hed : u.edits = s.edits)
    (hdel : u.deleted_lines = s.deleted_lines)
    (hoffs : u.line_offsets = s.line_offsets)
    (hins : u.inserted_lines = dset s.inserted_lines ln (s.get_line ln))
    (hlt : ln < s.total) :
    u.total = s.total ∧ ∀ n, u.get_line n = s.get_line n := by
  constructor
  · exact total_eq_of_dset_ins u s ln (s.get_line ln) hfile hoffs hins hed hlt
  · apply get_line_pointwise u s ln hfile
    · intro j hj
      rw [hins, dget_dset, if_neg (fun h => hj h.symm)]
    · intro j hj
      rw [hed]
    · intro j hj
      rw [hdel]
    · intro j
      unfold VBuf.logical_to_physical
      rw [hfile, hoffs]
    · apply get_line_of_dget_ins
      rw [hins, dget_dset, if_pos rfl]

/-- A state equal to `s` except that the edits overlay rewrites key `ln`
(absent from the inserted overlay) with the value `get_line` already
reports there is observationally `s`. -/
theorem obs_of_ed_dset (u s : VBuf) (ln : Int)
    (hfile : u.file = s.file)
    (hins : u.inserted_lines = s.inserted_lines)
    (hdel : u.deleted_lines = s.deleted_lines)
    (hoffs : u.line_offsets = s.line_offsets)
    (hed : u.edits = dset s.edits ln (s.get_line ln))
    (hm : dmem s.inserted_lines ln = false)
    (hlt : ln < s.total) :
    u.total = s.total ∧ ∀ n, u.get_line n = s.get_line n := by
  constructor
  · exact total_eq_of_dset_edits u s ln (s.get_line ln) hfile hoffs hins hed hlt
  · apply get_line_pointwise u s ln hfile
    · intro j hj
      rw [hins]
    · intro j hj
      rw [hed, dget_dset, if_neg (fun h => hj h.symm)]
    · intro j hj
      rw [hdel]
    · intro j
      unfold VBuf.logical_to_physical
      rw [hfile, hoffs]
    · apply get_line_of_dget_ed
      · rw [hins]
        exact dget_none_of_dmem_false _ _ hm
      · rw [hed, dget_dset, if_pos rfl]

/-- The C1 round trip for a newline-free insertion (single segment). -/
theorem roundTrip_single (s : VBuf) (t : PyStr)
    (hsel : s.selection.has_selection = false)
    (hcol0 : 0 ≤ s.cursor_col)
    (hcol : s.cursor_col ≤ ((s.get_line s.cursor_line).length : Int))
    (hcl : s.cursor_line < s.total)
    (hone : (t.splitOn '\n').length = 1) :
    (VBuf.roundTrip s t).total = s.total ∧
      ∀ n, (VBuf.roundTrip s t).get_line n = s.get_line n := by
  by_cases hm : dmem s.inserted_lines s.cursor_line = true
  · have h1 : s.insert_text t = { s with
        inserted_lines := dset s.inserted_lines s.cursor_line
          (pySliceTo (s.get_line s.cursor_line) s.cursor_col ++ t ++
            pySliceFrom (s.get_line s.cursor_line) s.cursor_col)
        cursor_col := s.cursor_col + (t.length : Int) } := by
      rw [insert_text_single_eq s t hsel hone, if_pos hm]
    have h2 : VBuf.roundTrip s t = (VBuf.delete_selection { s with
        inserted_lines := dset s.inserted_lines s.cursor_line
          (pySliceTo (s.get_line s.cursor_line) s.cursor_col ++ t ++
            pySliceFrom (s.get_line s.cursor_line) s.cursor_col)
        cursor_col := s.cursor_col + (t.length : Int)
        selection := { start_line := s.cursor_line, start_col := s.cursor_col
                       end_line := s.cursor_line
                       end_col := s.cursor_col + (t.length : Int)
                       active := decide (s.cursor_line ≠ s.cursor_line ∨
                         s.cursor_col ≠ s.cursor_col + (t.length : Int))
                       selecting_with_keyboard :=
                         s.selection.selecting_with_keyboard } }).1 := by
      unfold VBuf.roundTrip
      rw [h1]
      rfl
    rw [h2]
    set U : VBuf := { s with
        inserted_lines := dset s.inserted_lines s.cursor_line
          (pySliceTo (s.get_line s.cursor_line) s.cursor_col ++ t ++
            pySliceFrom (s.get_line s.cursor_line) s.cursor_col)
        cursor_col := s.cursor_col + (t.length : Int)
        selection := { start_line := s.cursor_line, start_col := s.cursor_col
                       end_line := s.cursor_line
                       end_col := s.cursor_col + (t.length : Int)
                       active := decide (s.cursor_line ≠ s.cursor_line ∨
                         s.cursor_col ≠ s.cursor_col + (t.length : Int))
                       selecting_with_keyboard :=
                         s.selection.selecting_with_keyboard } } with hU
    by_cases ht : t = []
    · have hact : U.selection.has_selection = false := by
        rw [hU]
        refine Eq.trans (has_selection_span _ _ _ _ _) ?_
        refine decide_eq_false ?_
        push_neg
        exact ⟨rfl, by rw [ht]; simp⟩
      rw [delete_selection_noop U hact]
      refine obs_of_ins_dset _ s s.cursor_line ?_ ?_ ?_ ?_ ?_ hcl
      · rw [hU]
      · rw [hU]
      · rw [hU]
      · rw [hU]
      · rw [hU, ht]
        rw [List.append_nil, pySliceTo_append_pySliceFrom]
    · have hlen : (0 : Int) < (t.length : Int) := by
        have h0 : t.length ≠ 0 := fun h => ht (List.length_eq_zero.mp h)
        omega
      have hact : U.selection.has_selection = true := by
        rw [hU]
        exact Eq.trans (has_selection_span _ _ _ _ _)
          (decide_eq_true (Or.inr (by omega)))
      have hbounds : U.selection.get_bounds = some (s.cursor_line,
          s.cursor_col, s.cursor_line, s.cursor_col + (t.length : Int)) := by
        refine Eq.trans (get_bounds_same_line U.selection hact ?_ ?_) ?_
        · rw [hU]
        · rw [hU]
          show s.cursor_col ≤ s.cursor_col + (t.length : Int)
          omega
        · rw [hU]
      have h3 := delete_selection_single_eq U s.cursor_line s.cursor_col
        (s.cursor_col + (t.length : Int)) hact hbounds
      rw [h3]
      have hdm : dmem U.inserted_lines s.cursor_line = true := by
        rw [hU]
        show dmem (dset s.inserted_lines s.cursor_line _) s.cursor_line = true
        rw [dmem_dset, if_pos rfl]
      have hgl : U.get_line s.cursor_line =
          pySliceTo (s.get_line s.cursor_line) s.cursor_col ++ t ++
            pySliceFrom (s.get_line s.cursor_line) s.cursor_col := by
        apply get_line_of_dget_ins
        rw [hU]
        show dget (dset s.inserted_lines s.cursor_line _) s.cursor_line = _
        rw [dget_dset, if_pos rfl]
      refine obs_of_ins_dset _ s s.cursor_line ?_ ?_ ?_ ?_ ?_ hcl
      · rw [hU]
      · simp only [if_pos hdm]
      · rw [hU]
      · rw [hU]
      · simp only [if_pos hdm]
        rw [hgl, splice_cut _ t _ hcol0 hcol]
        exact dset_dset _ _ _ _
  · have hm' : dmem s.inserted_lines s.cursor_line = false := by
      rw [← Bool.not_eq_true]
      exact hm
    have h1 : s.insert_text t = { s with
        edits := dset s.edits s.cursor_line
          (pySliceTo (s.get_line s.cursor_line) s.cursor_col ++ t ++
            pySliceFrom (s.get_line s.cursor_line) s.cursor_col)
        cursor_col := s.cursor_col + (t.length : Int) } := by
      rw [insert_text_single_eq s t hsel hone, if_neg hm]
    have h2 : VBuf.roundTrip s t = (VBuf.delete_selection { s with
        edits := dset s.edits s.cursor_line
          (pySliceTo (s.get_line s.cursor_line) s.cursor_col ++ t ++
            pySliceFrom (s.get_line s.cursor_line) s.cursor_col)
        cursor_col := s.cursor_col + (t.length : Int)
        selection := { start_line := s.cursor_line, start_col := s.cursor_col
                       end_line := s.cursor_line
                       end_col := s.cursor_col + (t.length : Int)
                       active := decide (s.cursor_line ≠ s.cursor_line ∨
                         s.cursor_col ≠ s.cursor_col + (t.length : Int))
                       selecting_with_keyboard :=
                         s.selection.selecting_with_keyboard } }).1 := by
      unfold VBuf.roundTrip
      rw [h1]
      rfl
    rw [h2]
    set U : VBuf := { s with
        edits := dset s.edits s.cursor_line
          (pySliceTo (s.get_line s.cursor_line) s.cursor_col ++ t ++
            pySliceFrom (s.get_line s.cursor_line) s.cursor_col)
        cursor_col := s.cursor_col + (t.length : Int)
        selection := { start_line := s.cursor_line, start_col := s.cursor_col
                       end_line := s.cursor_line
                       end_col := s.cursor_col + (t.length : Int)
                       active := decide (s.cursor_line ≠ s.cursor_line ∨
                         s.cursor_col ≠ s.cursor_col + (t.length : Int))
                       selecting_with_keyboard :=
                         s.selection.selecting_with_keyboard } } with hU
    have hdm : dmem U.inserted_lines s.cursor_line = false := by
      rw [hU]
      exact hm'
    have hdmf : ¬ dmem U.inserted_lines s.cursor_line = true := by
      rw [hdm]
      exact Bool.false_ne_true
    by_cases ht : t = []
    · have hact : U.selection.has_selection = false := by
        rw [hU]
        refine Eq.trans (has_selection_span _ _ _ _ _) ?_
        refine decide_eq_false ?_
        push_neg
        exact ⟨rfl, by rw [ht]; simp⟩
      rw [delete_selection_noop U hact]
      refine obs_of_ed_dset _ s s.cursor_line ?_ ?_ ?_ ?_ ?_ hm' hcl
      · rw [hU]
      · rw [hU]
      · rw [hU]
      · rw [hU]
      · rw [hU, ht]
        rw [List.append_nil, pySliceTo_append_pySliceFrom]
    · have hlen : (0 : Int) < (t.length : Int) := by
        have h0 : t.length ≠ 0 := fun h => ht (List.length_eq_zero.mp h)
        omega
      have hact : U.selection.has_selection = true := by
        rw [hU]
        exact Eq.trans (has_selection_span _ _ _ _ _)
          (decide_eq_true (Or.inr (by omega)))
      have hbounds : U.selection.get_bounds = some (s.cursor_line,
          s.cursor_col, s.cursor_line, s.cursor_col + (t.length : Int)) := by
        refine Eq.trans (get_bounds_same_line U.selection hact ?_ ?_) ?_
        · rw [hU]
        · rw [hU]
          show s.cursor_col ≤ s.cursor_col + (t.length : Int)
          omega
        · rw [hU]
      have h3 := delete_selection_single_eq U s.cursor_line s.cursor_col
        (s.cursor_col + (t.length : Int)) hact hbounds
      rw [h3]
      have hgl : U.get_line s.cursor_line =
          pySliceTo (s.get_line s.cursor_line) s.cursor_col ++ t ++
            pySliceFrom (s.get_line s.cursor_line) s.cursor_col := by
        apply get_line_of_dget_ed
        · rw [hU]
          exact dget_none_of_dmem_false _ _ hm'
        · rw [hU]
          show dget (dset s.edits s.cursor_line _) s.cursor_line = _
          rw [dget_dset, if_pos rfl]
      refine obs_of_ed_dset _ s s.cursor_line ?_ ?_ ?_ ?_ ?_ hm' hcl
      · rw [hU]
      · simp only [if_neg hdmf]
      · rw [hU]
      · rw [hU]
      · simp only [if_neg hdmf]
        rw [hgl, splice_cut _ t _ hcol0 hcol]
        exact dset_dset _ _ _ _

/-- The C1 round trip for a multi-segment insertion. -/
theorem roundTrip_multi (s : VBuf) (t : PyStr)
    (hsel : s.selection.has_selection = false)
    (hcol0 : 0 ≤ s.cursor_col)
    (hcol : s.cursor_col ≤ ((s.get_line s.cursor_line).length : Int))
    (hcl : s.cursor_line < s.total)
    (hsort : OffsSorted s.line_offsets)
    (hmulti : ¬ (t.splitOn '\n').length = 1) :
    (VBuf.roundTrip s t).total = s.total ∧
      ∀ n, (VBuf.roundTrip s t).get_line n = s.get_line n := by
  have hP2 : 2 ≤ (t.splitOn '\n').length := by
    have := splitOn_length_pos t
    omega
  set L' : Int := ((t.splitOn '\n').length : Int) - 1 with hL'
  have hL1 : 1 ≤ L' := by
    rw [hL']
    omega
  have hmid : (((t.splitOn '\n').drop 1).dropLast).length =
      (t.splitOn '\n').length - 2 := by
    rw [List.length_dropLast, List.length_drop]
    omega
  by_cases hm : dmem s.inserted_lines s.cursor_line = true
  · have h2 : VBuf.roundTrip s t = (VBuf.delete_selection { s with
        edits := s.edits.filterMap fun p =>
          if p.1 < s.cursor_line then some p
          else if p.1 = s.cursor_line then none
          else some (p.1 + L', p.2)
        deleted_lines := s.deleted_lines.map fun k =>
          if k < s.cursor_line then k else k + L'
        inserted_lines := dset
          (((((t.splitOn '\n').drop 1).dropLast).enum).foldl
            (fun d p => dset d (s.cursor_line + 1 + (p.1 : Int)) p.2)
            (dset (s.inserted_lines.filterMap fun p =>
              if p.1 < s.cursor_line then some p
              else if p.1 = s.cursor_line then none
              else some (p.1 + L', p.2)) s.cursor_line
              (pySliceTo (s.get_line s.cursor_line) s.cursor_col ++
                (t.splitOn '\n').headD [])))
          (s.cursor_line + L')
          ((t.splitOn '\n').getLastD [] ++
            pySliceFrom (s.get_line s.cursor_line) s.cursor_col)
        line_offsets := addOffsetList s.line_offsets (s.cursor_line + 1) L'
        cursor_line := s.cursor_line + L'
        cursor_col :=
          ((((t.splitOn '\n').getLastD [] ++
            pySliceFrom (s.get_line s.cursor_line) s.cursor_col).length : Int) -
            ((pySliceFrom (s.get_line s.cursor_line) s.cursor_col).length : Int))
        selection := { start_line := s.cursor_line, start_col := s.cursor_col
                       end_line := s.cursor_line + L'
                       end_col :=
                         ((((t.splitOn '\n').getLastD [] ++
                           pySliceFrom (s.get_line s.cursor_line)
                             s.cursor_col).length : Int) -
                           ((pySliceFrom (s.get_line s.cursor_line)
                             s.cursor_col).length : Int))
                       active := decide (s.cursor_line ≠ s.cursor_line + L' ∨
                         s.cursor_col ≠
                           ((((t.splitOn '\n').getLastD [] ++
                             pySliceFrom (s.get_line s.cursor_line)
                               s.cursor_col).length : Int) -
                             ((pySliceFrom (s.get_line s.cursor_line)
                               s.cursor_col).length : Int)))
                       selecting_with_keyboard :=
                         s.selection.selecting_with_keyboard } }).1 := by
      unfold VBuf.roundTrip
      rw [insert_text_multi_eq s t hsel hmulti]
      simp only [if_pos hm]
      try rfl
    rw [h2]
    set U : VBuf := { s with
        edits := s.edits.filterMap fun p =>
          if p.1 < s.cursor_line then some p
          else if p.1 = s.cursor_line then none
          else some (p.1 + L', p.2)
        deleted_lines := s.deleted_lines.map fun k =>
          if k < s.cursor_line then k else k + L'
        inserted_lines := dset
          (((((t.splitOn '\n').drop 1).dropLast).enum).foldl
            (fun d p => dset d (s.cursor_line + 1 + (p.1 : Int)) p.2)
            (dset (s.inserted_lines.filterMap fun p =>
              if p.1 < s.cursor_line then some p
              else if p.1 = s.cursor_line then none
              else some (p.1 + L', p.2)) s.cursor_line
              (pySliceTo (s.get_line s.cursor_line) s.cursor_col ++
                (t.splitOn '\n').headD [])))
          (s.cursor_line + L')
          ((t.splitOn '\n').getLastD [] ++
            pySliceFrom (s.get_line s.cursor_line) s.cursor_col)
        line_offsets := addOffsetList s.line_offsets (s.cursor_line + 1) L'
        cursor_line := s.cursor_line + L'
        cursor_col :=
          ((((t.splitOn '\n').getLastD [] ++
            pySliceFrom (s.get_line s.cursor_line) s.cursor_col).length : Int) -
            ((pySliceFrom (s.get_line s.cursor_line) s.cursor_col).length : Int))
        selection := { start_line := s.cursor_line, start_col := s.cursor_col
                       end_line := s.cursor_line + L'
                       end_col :=
                         ((((t.splitOn '\n').getLastD [] ++
                           pySliceFrom (s.get_line s.cursor_line)
                             s.cursor_col).length : Int) -
                           ((pySliceFrom (s.get_line s.cursor_line)
                             s.cursor_col).length : Int))
                       active := decide (s.cursor_line ≠ s.cursor_line + L' ∨
                         s.cursor_col ≠
                           ((((t.splitOn '\n').getLastD [] ++
                             pySliceFrom (s.get_line s.cursor_line)
                               s.cursor_col).length : Int) -
                             ((pySliceFrom (s.get_line s.cursor_line)
                               s.cursor_col).length : Int)))
                       selecting_with_keyboard :=
                         s.selection.selecting_with_keyboard } } with hU
    have hact : U.selection.has_selection = true := by
      rw [hU]
      exact Eq.trans (has_selection_span _ _ _ _ _)
        (decide_eq_true (Or.inl (by omega)))
    have hbounds : U.selection.get_bounds = some (s.cursor_line, s.cursor_col,
        s.cursor_line + L',
        ((((t.splitOn '\n').getLastD [] ++
          pySliceFrom (s.get_line s.cursor_line) s.cursor_col).length : Int) -
          ((pySliceFrom (s.get_line s.cursor_line) s.cursor_col).length : Int))) := by
      refine Eq.trans (get_bounds_lt U.selection hact ?_) ?_
      · rw [hU]
        show s.cursor_line < s.cursor_line + L'
        omega
      · rw [hU]
    have h3 := delete_selection_multi_eq U s.cursor_line s.cursor_col
      (s.cursor_line + L')
      ((((t.splitOn '\n').getLastD [] ++
        pySliceFrom (s.get_line s.cursor_line) s.cursor_col).length : Int) -
        ((pySliceFrom (s.get_line s.cursor_line) s.cursor_col).length : Int))
      hact hbounds (by omega)
    have hdgetln : dget U.inserted_lines s.cursor_line =
        some (pySliceTo (s.get_line s.cursor_line) s.cursor_col ++
          (t.splitOn '\n').headD []) := by
      simp only [hU]
      rw [dget_dset, if_neg (by omega),
        dget_foldl_dset_outside _ _ s.cursor_line s.cursor_line
          (fun p hp => by omega),
        dget_dset, if_pos rfl]
    have hdm3 : dmem U.inserted_lines s.cursor_line = true := by
      unfold dmem
      rw [hdgetln]
      rfl
    have hlstget : dget U.inserted_lines (s.cursor_line + L') =
        some ((t.splitOn '\n').getLastD [] ++
          pySliceFrom (s.get_line s.cursor_line) s.cursor_col) := by
      simp only [hU]
      rw [dget_dset, if_pos rfl]
    have hfst := get_line_of_dget_ins U _ _ hdgetln
    have hlst := get_line_of_dget_ins U _ _ hlstget
    have hcut : pySliceTo (U.get_line s.cursor_line) s.cursor_col ++
        pySliceFrom (U.get_line (s.cursor_line + L'))
          ((((t.splitOn '\n').getLastD [] ++
            pySliceFrom (s.get_line s.cursor_line) s.cursor_col).length : Int) -
            ((pySliceFrom (s.get_line s.cursor_line) s.cursor_col).length : Int)) =
        s.get_line s.cursor_line := by
      rw [hfst, hlst]
      rw [pySliceTo_append_exact _ _ _ hcol0
        (length_pySliceTo _ _ hcol0 hcol).symm]
      rw [pySliceFrom_append_exact ((t.splitOn '\n').getLastD [])
        (pySliceFrom (s.get_line s.cursor_line) s.cursor_col)
        ((((t.splitOn '\n').getLastD [] ++
          pySliceFrom (s.get_line s.cursor_line) s.cursor_col).length : Int) -
          ((pySliceFrom (s.get_line s.cursor_line) s.cursor_col).length : Int))
        (by
          rw [List.length_append]
          push_cast
          omega)
        (by
          rw [List.length_append]
          push_cast
          omega)]
      exact pySliceTo_append_pySliceFrom _ _
    have hRfile : (VBuf.delete_selection U).1.file = s.file := by rw [h3]
    have hRoffs : (VBuf.delete_selection U).1.line_offsets =
        addOffsetList (addOffsetList s.line_offsets (s.cursor_line + 1) L')
          (s.cursor_line + 1) (-(s.cursor_line + L' - s.cursor_line)) := by
      rw [h3]
    have hRdel : (VBuf.delete_selection U).1.deleted_lines =
        U.deleted_lines.filterMap fun k =>
          if k < s.cursor_line then some k
          else if k ≤ s.cursor_line + L' then none
          else some (k - (s.cursor_line + L' - s.cursor_line)) := by
      rw [h3]
    have hRins : (VBuf.delete_selection U).1.inserted_lines =
        dset (U.inserted_lines.filterMap fun p =>
          if p.1 < s.cursor_line then some p
          else if p.1 = s.cursor_line then none
          else if p.1 ≤ s.cursor_line + L' then none
          else some (p.1 - (s.cursor_line + L' - s.cursor_line), p.2))
          s.cursor_line (s.get_line s.cursor_line) := by
      rw [h3]
      simp only [if_pos hdm3]
      rw [hcut]
    have hRed : (VBuf.delete_selection U).1.edits =
        U.edits.filterMap fun p =>
          if p.1 < s.cursor_line then some p
          else if p.1 = s.cursor_line then none
          else if p.1 ≤ s.cursor_line + L' then none
          else some (p.1 - (s.cursor_line + L' - s.cursor_line), p.2) := by
      rw [h3]
      simp only [if_pos hdm3]
    have hGins : ∀ j, ¬ j = s.cursor_line →
        dget (VBuf.delete_selection U).1.inserted_lines j =
          dget s.inserted_lines j := by
      intro j hj
      rw [hRins, dget_dset, if_neg (fun h => hj h.symm),
        dget_shiftDown _ s.cursor_line (s.cursor_line + L') (by omega) j]
      by_cases hjl : j < s.cursor_line
      · rw [if_pos hjl]
        simp only [hU]
        rw [dget_dset, if_neg (by omega),
          dget_foldl_dset_outside _ _ s.cursor_line j (fun p hp => by omega),
          dget_dset, if_neg (by omega),
          dget_shiftUp _ s.cursor_line L' hL1 j, if_pos hjl]
      · rw [if_neg hjl, if_neg hj]
        simp only [hU]
        rw [dget_dset, if_neg (by omega),
          dget_foldl_dset_outside _ _ s.cursor_line
            (j + (s.cursor_line + L' - s.cursor_line)) (fun p hp => by
              have hb := enum_fst_lt _ _ hp
              rw [hmid] at hb
              omega),
          dget_dset, if_neg (by omega),
          dget_shiftUp _ s.cursor_line L' hL1
            (j + (s.cursor_line + L' - s.cursor_line)),
          if_neg (by omega), if_neg (by omega)]
        congr 1
        omega
    have hGed : ∀ j, ¬ j = s.cursor_line →
        dget (VBuf.delete_selection U).1.edits j = dget s.edits j := by
      intro j hj
      rw [hRed,
        dget_shiftDown _ s.cursor_line (s.cursor_line + L') (by omega) j]
      by_cases hjl : j < s.cursor_line
      · rw [if_pos hjl]
        simp only [hU]
        rw [dget_shiftUp _ s.cursor_line L' hL1 j, if_pos hjl]
      · rw [if_neg hjl, if_neg hj]
        simp only [hU]
        rw [dget_shiftUp _ s.cursor_line L' hL1
          (j + (s.cursor_line + L' - s.cursor_line)),
          if_neg (by omega), if_neg (by omega)]
        congr 1
        omega
    have hGdel : ∀ j, ¬ j = s.cursor_line →
        ((VBuf.delete_selection U).1.deleted_lines).contains j =
          s.deleted_lines.contains j := by
      intro j hj
      apply contains_eq_of_mem_iff
      rw [hRdel,
        mem_shiftDownSet _ s.cursor_line (s.cursor_line + L') (by omega) j]
      by_cases hjl : j < s.cursor_line
      · rw [if_pos hjl]
        simp only [hU]
        rw [mem_shiftUpSet _ s.cursor_line L' hL1 j, if_pos hjl]
      · rw [if_neg hjl, if_neg (by omega)]
        simp only [hU]
        rw [mem_shiftUpSet _ s.cursor_line L' hL1
          (j + (s.cursor_line + L' - s.cursor_line)),
          if_neg (by omega), if_neg (by omega)]
        have hx : j + (s.cursor_line + L' - s.cursor_line) - L' = j := by ring
        rw [hx]
    have hval : (VBuf.delete_selection U).1.get_line s.cursor_line =
        s.get_line s.cursor_line := by
      apply get_line_of_dget_ins
      rw [hRins, dget_dset, if_pos rfl]
    have hphys : ∀ j, (VBuf.delete_selection U).1.logical_to_physical j =
        s.logical_to_physical j := by
      intro j
      cases hf : s.file with
      | none =>
        unfold VBuf.logical_to_physical
        rw [hRfile, hf]
      | some f =>
        have hsort2 : OffsSorted (VBuf.delete_selection U).1.line_offsets := by
          rw [hRoffs]
          exact addOffsetList_sorted _ _ _ (addOffsetList_sorted _ _ _ hsort)
        rw [logical_to_physical_shiftFold _ f (hRfile.trans hf) hsort2 j,
          logical_to_physical_shiftFold s f hf hsort j, hRoffs,
          addOffsetList_shiftFold _ _ _ _ (addOffsetList_sorted _ _ _ hsort),
          addOffsetList_shiftFold _ _ _ _ hsort]
        by_cases hjq : s.cursor_line + 1 ≤ j
        · rw [if_pos hjq, if_pos hjq]
          ring
        · rw [if_neg hjq, if_neg hjq]
          ring
    constructor
    · cases hf : s.file with
      | none =>
        refine total_none_of_pointwise _ s s.cursor_line (hRfile.trans hf) hf
          hcl hGed hGins ?_
        rintro ⟨hc1, hc2⟩
        rw [hRins, dget_dset, if_pos rfl] at hc2
        exact Option.noConfusion hc2
      | some f =>
        rw [total_some _ f (hRfile.trans hf), total_some s f hf, hRoffs]
        have hne1 : addOffsetList s.line_offsets (s.cursor_line + 1) L' ≠ [] :=
          addOffsetList_ne_nil _ _ _
        have hne2 : addOffsetList
            (addOffsetList s.line_offsets (s.cursor_line + 1) L')
            (s.cursor_line + 1) (-(s.cursor_line + L' - s.cursor_line)) ≠ [] :=
          addOffsetList_ne_nil _ _ _
        rw [if_neg hne2]
        have hv2 := addOffsetList_lastVal
          (addOffsetList s.line_offsets (s.cursor_line + 1) L')
          (s.cursor_line + 1) (-(s.cursor_line + L' - s.cursor_line))
        rw [if_neg hne1] at hv2
        have hv1 := addOffsetList_lastVal s.line_offsets (s.cursor_line + 1) L'
        rw [hv2, hv1]
        by_cases hoe : s.line_offsets = []
        · rw [if_pos hoe, if_pos hoe]
          omega
        · rw [if_neg hoe, if_neg hoe]
          omega
    · exact get_line_pointwise _ s s.cursor_line hRfile hGins hGed hGdel
        hphys hval
  · have hm' : dmem s.inserted_lines s.cursor_line = false := by
      rw [← Bool.not_eq_true]
      exact hm
    have h2 : VBuf.roundTrip s t = (VBuf.delete_selection { s with
        edits := dset (s.edits.filterMap fun p =>
          if p.1 < s.cursor_line then some p
          else if p.1 = s.cursor_line then none
          else some (p.1 + L', p.2)) s.cursor_line
          (pySliceTo (s.get_line s.cursor_line) s.cursor_col ++
            (t.splitOn '\n').headD [])
        deleted_lines := s.deleted_lines.map fun k =>
          if k < s.cursor_line then k else k + L'
        inserted_lines := dset
          (((((t.splitOn '\n').drop 1).dropLast).enum).foldl
            (fun d p => dset d (s.cursor_line + 1 + (p.1 : Int)) p.2)
            (s.inserted_lines.filterMap fun p =>
              if p.1 < s.cursor_line then some p
              else if p.1 = s.cursor_line then none
              else some (p.1 + L', p.2)))
          (s.cursor_line + L')
          ((t.splitOn '\n').getLastD [] ++
            pySliceFrom (s.get_line s.cursor_line) s.cursor_col)
        line_offsets := addOffsetList s.line_offsets (s.cursor_line + 1) L'
        cursor_line := s.cursor_line + L'
        cursor_col :=
          ((((t.splitOn '\n').getLastD [] ++
            pySliceFrom (s.get_line s.cursor_line) s.cursor_col).length : Int) -
            ((pySliceFrom (s.get_line s.cursor_line) s.cursor_col).length : Int))
        selection := { start_line := s.cursor_line, start_col := s.cursor_col
                       end_line := s.cursor_line + L'
                       end_col :=
                         ((((t.splitOn '\n').getLastD [] ++
                           pySliceFrom (s.get_line s.cursor_line)
                             s.cursor_col).length : Int) -
                           ((pySliceFrom (s.get_line s.cursor_line)
                             s.cursor_col).length : Int))
                       active := decide (s.cursor_line ≠ s.cursor_line + L' ∨
                         s.cursor_col ≠
                           ((((t.splitOn '\n').getLastD [] ++
                             pySliceFrom (s.get_line s.cursor_line)
                               s.cursor_col).length : Int) -
                             ((pySliceFrom (s.get_line s.cursor_line)
                               s.cursor_col).length : Int)))
                       selecting_with_keyboard :=
                         s.selection.selecting_with_keyboard } }).1 := by
      unfold VBuf.roundTrip
      rw [insert_text_multi_eq s t hsel hmulti]
      simp only [if_neg (fun h => Bool.false_ne_true (hm' ▸ h))]
      try rfl
    rw [h2]
    set U : VBuf := { s with
        edits := dset (s.edits.filterMap fun p =>
          if p.1 < s.cursor_line then some p
          else if p.1 = s.cursor_line then none
          else some (p.1 + L', p.2)) s.cursor_line
          (pySliceTo (s.get_line s.cursor_line) s.cursor_col ++
            (t.splitOn '\n').headD [])
        deleted_lines := s.deleted_lines.map fun k =>
          if k < s.cursor_line then k else k + L'
        inserted_lines := dset
          (((((t.splitOn '\n').drop 1).dropLast).enum).foldl
            (fun d p => dset d (s.cursor_line + 1 + (p.1 : Int)) p.2)
            (s.inserted_lines.filterMap fun p =>
              if p.1 < s.cursor_line then some p
              else if p.1 = s.cursor_line then none
              else some (p.1 + L', p.2)))
          (s.cursor_line + L')
          ((t.splitOn '\n').getLastD [] ++
            pySliceFrom (s.get_line s.cursor_line) s.cursor_col)
        line_offsets := addOffsetList s.line_offsets (s.cursor_line + 1) L'
        cursor_line := s.cursor_line + L'
        cursor_col :=
          ((((t.splitOn '\n').getLastD [] ++
            pySliceFrom (s.get_line s.cursor_line) s.cursor_col).length : Int) -
            ((pySliceFrom (s.get_line s.cursor_line) s.cursor_col).length : Int))
        selection := { start_line := s.cursor_line, start_col := s.cursor_col
                       end_line := s.cursor_line + L'
                       end_col :=
                         ((((t.splitOn '\n').getLastD [] ++
                           pySliceFrom (s.get_line s.cursor_line)
                             s.cursor_col).length : Int) -
                           ((pySliceFrom (s.get_line s.cursor_line)
                             s.cursor_col).length : Int))
                       active := decide (s.cursor_line ≠ s.cursor_line + L' ∨
                         s.cursor_col ≠
                           ((((t.splitOn '\n').getLastD [] ++
                             pySliceFrom (s.get_line s.cursor_line)
                               s.cursor_col).length : Int) -
                             ((pySliceFrom (s.get_line s.cursor_line)
                               s.cursor_col).length : Int)))
                       selecting_with_keyboard :=
                         s.selection.selecting_with_keyboard } } with hU
    have hact : U.selection.has_selection = true := by
      rw [hU]
      exact Eq.trans (has_selection_span _ _ _ _ _)
        (decide_eq_true (Or.inl (by omega)))
    have hbounds : U.selection.get_bounds = some (s.cursor_line, s.cursor_col,
        s.cursor_line + L',
        ((((t.splitOn '\n').getLastD [] ++
          pySliceFrom (s.get_line s.cursor_line) s.cursor_col).length : Int) -
          ((pySliceFrom (s.get_line s.cursor_line) s.cursor_col).length : Int))) := by
      refine Eq.trans (get_bounds_lt U.selection hact ?_) ?_
      · rw [hU]
        show s.cursor_line < s.cursor_line + L'
        omega
      · rw [hU]
    have h3 := delete_selection_multi_eq U s.cursor_line s.cursor_col
      (s.cursor_line + L')
      ((((t.splitOn '\n').getLastD [] ++
        pySliceFrom (s.get_line s.cursor_line) s.cursor_col).length : Int) -
        ((pySliceFrom (s.get_line s.cursor_line) s.cursor_col).length : Int))
      hact hbounds (by omega)
    have hdgetln : dget U.inserted_lines s.cursor_line = none := by
      simp only [hU]
      rw [dget_dset, if_neg (by omega),
        dget_foldl_dset_outside _ _ s.cursor_line s.cursor_line
          (fun p hp => by omega),
        dget_shiftUp _ s.cursor_line L' hL1 s.cursor_line,
        if_neg (lt_irrefl _), if_pos (by omega)]
    have hdm3 : dmem U.inserted_lines s.cursor_line = false := by
      unfold dmem
      rw [hdgetln]
      rfl
    have hdm3f : ¬ dmem U.inserted_lines s.cursor_line = true := by
      rw [hdm3]
      exact Bool.false_ne_true
    have hedget : dget U.edits s.cursor_line =
        some (pySliceTo (s.get_line s.cursor_line) s.cursor_col ++
          (t.splitOn '\n').headD []) := by
      simp only [hU]
      rw [dget_dset, if_pos rfl]
    have hlstget : dget U.inserted_lines (s.cursor_line + L') =
        some ((t.splitOn '\n').getLastD [] ++
          pySliceFrom (s.get_line s.cursor_line) s.cursor_col) := by
      simp only [hU]
      rw [dget_dset, if_pos rfl]
    have hfst := get_line_of_dget_ed U _ _ hdgetln hedget
    have hlst := get_line_of_dget_ins U _ _ hlstget
    have hcut : pySliceTo (U.get_line s.cursor_line) s.cursor_col ++
        pySliceFrom (U.get_line (s.cursor_line + L'))
          ((((t.splitOn '\n').getLastD [] ++
            pySliceFrom (s.get_line s.cursor_line) s.cursor_col).length : Int) -
            ((pySliceFrom (s.get_line s.cursor_line) s.cursor_col).length : Int)) =
        s.get_line s.cursor_line := by
      rw [hfst, hlst]
      rw [pySliceTo_append_exact _ _ _ hcol0
        (length_pySliceTo _ _ hcol0 hcol).symm]
      rw [pySliceFrom_append_exact ((t.splitOn '\n').getLastD [])
        (pySliceFrom (s.get_line s.cursor_line) s.cursor_col)
        ((((t.splitOn '\n').getLastD [] ++
          pySliceFrom (s.get_line s.cursor_line) s.cursor_col).length : Int) -
          ((pySliceFrom (s.get_line s.cursor_line) s.cursor_col).length : Int))
        (by
          rw [List.length_append]
          push_cast
          omega)
        (by
          rw [List.length_append]
          push_cast
          omega)]
      exact pySliceTo_append_pySliceFrom _ _
    have hRfile : (VBuf.delete_selection U).1.file = s.file := by rw [h3]
    have hRoffs : (VBuf.delete_selection U).1.line_offsets =
        addOffsetList (addOffsetList s.line_offsets (s.cursor_line + 1) L')
          (s.cursor_line + 1) (-(s.cursor_line + L' - s.cursor_line)) := by
      rw [h3]
    have hRdel : (VBuf.delete_selection U).1.deleted_lines =
        U.deleted_lines.filterMap fun k =>
          if k < s.cursor_line then some k
          else if k ≤ s.cursor_line + L' then none
          else some (k - (s.cursor_line + L' - s.cursor_line)) := by
      rw [h3]
    have hRins : (VBuf.delete_selection U).1.inserted_lines =
        U.inserted_lines.filterMap fun p =>
          if p.1 < s.cursor_line then some p
          else if p.1 = s.cursor_line then none
          else if p.1 ≤ s.cursor_line + L' then none
          else some (p.1 - (s.cursor_line + L' - s.cursor_line), p.2) := by
      rw [h3]
      simp only [if_neg hdm3f]
    have hRed : (VBuf.delete_selection U).1.edits =
        dset (U.edits.filterMap fun p =>
          if p.1 < s.cursor_line then some p
          else if p.1 = s.cursor_line then none
          else if p.1 ≤ s.cursor_line + L' then none
          else some (p.1 - (s.cursor_line + L' - s.cursor_line), p.2))
          s.cursor_line (s.get_line s.cursor_line) := by
      rw [h3]
      simp only [if_neg hdm3f]
      rw [hcut]
    have hGins : ∀ j, ¬ j = s.cursor_line →
        dget (VBuf.delete_selection U).1.inserted_lines j =
          dget s.inserted_lines j := by
      intro j hj
      rw [hRins,
        dget_shiftDown _ s.cursor_line (s.cursor_line + L') (by omega) j]
      by_cases hjl : j < s.cursor_line
      · rw [if_pos hjl]
        simp only [hU]
        rw [dget_dset, if_neg (by omega),
          dget_foldl_dset_outside _ _ s.cursor_line j (fun p hp => by omega),
          dget_shiftUp _ s.cursor_line L' hL1 j, if_pos hjl]
      · rw [if_neg hjl, if_neg hj]
        simp only [hU]
        rw [dget_dset, if_neg (by omega),
          dget_foldl_dset_outside _ _ s.cursor_line
            (j + (s.cursor_line + L' - s.cursor_line)) (fun p hp => by
              have hb := enum_fst_lt _ _ hp
              rw [hmid] at hb
              omega),
          dget_shiftUp _ s.cursor_line L' hL1
            (j + (s.cursor_line + L' - s.cursor_line)),
          if_neg (by omega), if_neg (by omega)]
        congr 1
        omega
    have hGed : ∀ j, ¬ j = s.cursor_line →
        dget (VBuf.delete_selection U).1.edits j = dget s.edits j := by
      intro j hj
      rw [hRed, dget_dset, if_neg (fun h => hj h.symm),
        dget_shiftDown _ s.cursor_line (s.cursor_line + L') (by omega) j]
      by_cases hjl : j < s.cursor_line
      · rw [if_pos hjl]
        simp only [hU]
        rw [dget_dset, if_neg (fun h => hj h.symm),
          dget_shiftUp _ s.cursor_line L' hL1 j, if_pos hjl]
      · rw [if_neg hjl, if_neg hj]
        simp only [hU]
        rw [dget_dset, if_neg (by omega),
          dget_shiftUp _ s.cursor_line L' hL1
            (j + (s.cursor_line + L' - s.cursor_line)),
          if_neg (by omega), if_neg (by omega)]
        congr 1
        omega
    have hGdel : ∀ j, ¬ j = s.cursor_line →
        ((VBuf.delete_selection U).1.deleted_lines).contains j =
          s.deleted_lines.contains j := by
      intro j hj
      apply contains_eq_of_mem_iff
      rw [hRdel,
        mem_shiftDownSet _ s.cursor_line (s.cursor_line + L') (by omega) j]
      by_cases hjl : j < s.cursor_line
      · rw [if_pos hjl]
        simp only [hU]
        rw [mem_shiftUpSet _ s.cursor_line L' hL1 j, if_pos hjl]
      · rw [if_neg hjl, if_neg (by omega)]
        simp only [hU]
        rw [mem_shiftUpSet _ s.cursor_line L' hL1
          (j + (s.cursor_line + L' - s.cursor_line)),
          if_neg (by omega), if_neg (by omega)]
        have hx : j + (s.cursor_line + L' - s.cursor_line) - L' = j := by ring
        rw [hx]
    have hval : (VBuf.delete_selection U).1.get_line s.cursor_line =
        s.get_line s.cursor_line := by
      apply get_line_of_dget_ed
      · rw [hRins,
          dget_shiftDown _ s.cursor_line (s.cursor_line + L') (by omega)
            s.cursor_line,
          if_neg (lt_irrefl _), if_pos rfl]
      · rw [hRed, dget_dset, if_pos rfl]
    have hphys : ∀ j, (VBuf.delete_selection U).1.logical_to_physical j =
        s.logical_to_physical j := by
      intro j
      cases hf : s.file with
      | none =>
        unfold VBuf.logical_to_physical
        rw [hRfile, hf]
      | some f =>
        have hsort2 : OffsSorted (VBuf.delete_selection U).1.line_offsets := by
          rw [hRoffs]
          exact addOffsetList_sorted _ _ _ (addOffsetList_sorted _ _ _ hsort)
        rw [logical_to_physical_shiftFold _ f (hRfile.trans hf) hsort2 j,
          logical_to_physical_shiftFold s f hf hsort j, hRoffs,
          addOffsetList_shiftFold _ _ _ _ (addOffsetList_sorted _ _ _ hsort),
          addOffsetList_shiftFold _ _ _ _ hsort]
        by_cases hjq : s.cursor_line + 1 ≤ j
        · rw [if_pos hjq, if_pos hjq]
          ring
        · rw [if_neg hjq, if_neg hjq]
          ring
    constructor
    · cases hf : s.file with
      | none =>
        refine total_none_of_pointwise _ s s.cursor_line (hRfile.trans hf) hf
          hcl hGed hGins ?_
        rintro ⟨hc1, hc2⟩
        rw [hRed, dget_dset, if_pos rfl] at hc1
        exact Option.noConfusion hc1
      | some f =>
        rw [total_some _ f (hRfile.trans hf), total_some s f hf, hRoffs]
        have hne1 : addOffsetList s.line_offsets (s.cursor_line + 1) L' ≠ [] :=
          addOffsetList_ne_nil _ _ _
        have hne2 : addOffsetList
            (addOffsetList s.line_offsets (s.cursor_line + 1) L')
            (s.cursor_line + 1) (-(s.cursor_line + L' - s.cursor_line)) ≠ [] :=
          addOffsetList_ne_nil _ _ _
        rw [if_neg hne2]
        have hv2 := addOffsetList_lastVal
          (addOffsetList s.line_offsets (s.cursor_line + 1) L')
          (s.cursor_line + 1) (-(s.cursor_line + L' - s.cursor_line))
        rw [if_neg hne1] at hv2
        have hv1 := addOffsetList_lastVal s.line_offsets (s.cursor_line + 1) L'
        rw [hv2, hv1]
        by_cases hoe : s.line_offsets = []
        · rw [if_pos hoe, if_pos hoe]
          omega
        · rw [if_neg hoe, if_neg hoe]
          omega
    · exact get_line_pointwise _ s s.cursor_line hRfile hGins hGed hGdel
        hphys hval

/-- C1 counterexample: with a selection already active, `insert_text` first
deletes the selected span, so the subsequent round-trip deletion does not
restore the original content: line 0 goes from "ab" to "Xb". -/
theorem c1_counterexample :
    selActiveBuffer.selection.has_selection = true ∧
    selActiveBuffer.get_line 0 = "ab".toList ∧
    (VBuf.roundTrip selActiveBuffer "X".toList).get_line 0 = "Xb".toList := by
  decide

/-- C1 (amended): for every buffer state with no active selection, whose
cursor column lies within the current line (0 ≤ col ≤ len(line)), whose
cursor line lies below total(), and whose remap table has strictly
increasing boundaries, inserting any text t at the cursor and then
selecting exactly the inserted span (anchor at the pre-insert cursor,
floating end at the post-insert cursor) and deleting that selection
restores the buffer observationally: total() and every get_line(n) equal
their pre-insert values. -/
theorem c1_insert_delete_roundtrip (s : VBuf) (t : PyStr)
    (hsel : s.selection.has_selection = false)
    (hcol0 : 0 ≤ s.cursor_col)
    (hcol : s.cursor_col ≤ ((s.get_line s.cursor_line).length : Int))
    (hcl : s.cursor_line < s.total)
    (hsort : OffsSorted s.line_offsets) :
    (VBuf.roundTrip s t).total = s.total ∧
      ∀ n, (VBuf.roundTrip s t).get_line n = s.get_line n := by
  by_cases hone : (t.splitOn '\n').length = 1
  · exact roundTrip_single s t hsel hcol0 hcol hcl hone
  · exact roundTrip_multi s t hsel hcol0 hcol hcl hsort hone

/-- Witness for C1 at a concrete file-backed buffer and a two-segment
insertion. -/
theorem c1_witness :
    (VBuf.roundTrip c1WitnessBuffer "X\nY".toList).total =
      c1WitnessBuffer.total ∧
    ∀ n, (VBuf.roundTrip c1WitnessBuffer "X\nY".toList).get_line n =
      c1WitnessBuffer.get_line n :=
  c1_insert_delete_roundtrip c1WitnessBuffer ("X\nY".toList)
    (by decide) (by decide) (by decide) (by decide)
    (by exact List.Pairwise.nil)

/-- Witness for C6 at a concrete buffer and arguments. -/
theorem c6_witness :
    VBuf.empty.selection.selecting_with_keyboard = false ∧
    VBuf.empty.set_cursor 5 3 false =
      { VBuf.empty with cursor_line := 0, cursor_col := 0
                        selection := SelectionM.init } := by
  refine ⟨rfl, ?_⟩
  have h := (c6_set_cursor VBuf.empty 5 3).1 rfl
  exact h.trans (by decide)

end VTed
